/-
Verification of the synchronization core of `room-overview`.

The development shallowly embeds the data model and operations of
`src/db.rs`, `src/pull_from_ct.rs`, `src/main.rs`, `src/web/mod.rs` and
`src/config.rs`:

* Timestamps: the program stores bookings in SQLite TEXT columns, always
  formatted with the chrono pattern `%Y-%m-%dT%H:%M:%S` from UTC datetimes.
  We embed a UTC instant as its civil fields (`DT`): chrono's `Ord` on
  `NaiveDateTime` / `DateTime<Utc>` coincides with lexicographic order on
  (year, month, day, hour, minute, second, nanosecond) for valid dates, which
  is the order `DT.ltB` below.  The embedding covers years 0..=9999 (the
  widths printed by `%Y-%m-%dT%H:%M:%S` without a sign), stated explicitly as
  a validity hypothesis where relevant.
* SQLite TEXT comparison (used by the `WHERE` clauses of
  `get_bookings_in_timeframe` and `prune_old_bookings`) is memcmp over UTF-8
  bytes; on the ASCII strings produced by the storage pattern this is
  `strLtB`/`strLeB` below (lexicographic on code points).
* The database is a list of rows (`Store`); the primary key `booking_id`
  makes `INSERT` fail on a duplicate key, `UPDATE`/`DELETE` never fail on a
  missing key.  Failures of the underlying engine other than the key
  conflict are not modelled.
-/
import Mathlib

set_option autoImplicit false

namespace RoomOverview

/-! ## Decimal digits: printing and parsing of fixed-width numeric fields

`chrono` prints each field of `%Y-%m-%dT%H:%M:%S` zero-padded to a fixed
width (4 for `%Y`, 2 for the rest) and parses greedily up to the next
non-digit character. -/

/-- The ASCII character of a decimal digit. -/
def digCh (d : Nat) : Char := Char.ofNat (48 + d)

/-- Is `c` an ASCII decimal digit? -/
def isDigCh (c : Char) : Bool := 48 ≤ c.toNat && c.toNat ≤ 57

/-- Decimal digits of `n`, least significant first; `fuel` bounds recursion
(structurally) and is always instantiated with `n` itself. -/
def digitsF : Nat → Nat → List Nat
  | 0, _ => []
  | fuel + 1, n => if n = 0 then [] else n % 10 :: digitsF fuel (n / 10)

/-- Value of a least-significant-first digit list. -/
def vaL : List Nat → Nat
  | [] => 0
  | d :: ds => d + 10 * vaL ds

/-- Most-significant-first evaluation with an accumulator (the way a
left-to-right parser accumulates a number). -/
def valN (acc : Nat) : List Nat → Nat
  | [] => acc
  | d :: ds => valN (acc * 10 + d) ds

/-- The decimal digit characters of `n`, most significant first
(empty for `n = 0`). -/
def natChars (n : Nat) : List Char := ((digitsF n n).map digCh).reverse

/-- `n` printed zero-padded to width `w` (the padding chrono's numeric
formatting items use). -/
def padNat (w n : Nat) : List Char :=
  List.replicate (w - (natChars n).length) '0' ++ natChars n

/-- Left-to-right accumulation over digit characters. -/
def valC (acc : Nat) : List Char → Nat
  | [] => acc
  | c :: cs => valC (acc * 10 + (c.toNat - 48)) cs

/-! ## Greedy numeric parsing (chrono's numeric `Item` parser) -/

/-- Consume leading decimal digits, accumulating their value. -/
def parseNatAcc (acc : Nat) : List Char → Nat × List Char
  | [] => (acc, [])
  | c :: cs => if isDigCh c then parseNatAcc (acc * 10 + (c.toNat - 48)) cs else (acc, c :: cs)

/-- Parse a decimal number (at least one digit required). -/
def parseNat : List Char → Option (Nat × List Char)
  | [] => none
  | c :: cs => if isDigCh c then some (parseNatAcc 0 (c :: cs)) else none

/-! ## SQLite TEXT comparison

SQLite's default BINARY collation compares TEXT values by `memcmp` over their
UTF-8 bytes; on the pure-ASCII strings produced by `%Y-%m-%dT%H:%M:%S` this
is lexicographic comparison of code points. -/

/-- memcmp-style strict comparison on character lists. -/
def strLtB : List Char → List Char → Bool
  | [], [] => false
  | [], _ :: _ => true
  | _ :: _, [] => false
  | a :: as, b :: bs =>
    decide (a.toNat < b.toNat) || (decide (a.toNat = b.toNat) && strLtB as bs)

/-- memcmp-style `<=` on character lists. -/
def strLeB (a b : List Char) : Bool := !(strLtB b a)

/-! ## Civil UTC datetimes

`chrono::DateTime<Utc>` / `NaiveDateTime` embedded by civil fields.  chrono's
`Ord` on these types coincides with lexicographic order on
(year, month, day, hour, minute, second, nanosecond) for valid dates, which is
`DT.ltB` below.  The embedding covers the years 0..=9999 printable without a
sign by `%Y`. -/

structure DT where
  year : Nat
  month : Nat
  day : Nat
  hour : Nat
  minute : Nat
  second : Nat
  nano : Nat
deriving DecidableEq

def isLeapYear (y : Nat) : Bool := (y % 4 == 0 && !(y % 100 == 0)) || y % 400 == 0

def daysInMonth (y m : Nat) : Nat :=
  if m = 2 then (if isLeapYear y then 29 else 28)
  else if m = 4 ∨ m = 6 ∨ m = 9 ∨ m = 11 then 30
  else if 1 ≤ m ∧ m ≤ 12 then 31
  else 0

/-- Calendar validity as enforced by chrono's `NaiveDate`/`NaiveTime`
constructors, restricted to the four-digit years of the storage pattern. -/
def DT.isValid (t : DT) : Bool :=
  decide (t.year ≤ 9999) && decide (1 ≤ t.month) && decide (t.month ≤ 12) &&
  decide (1 ≤ t.day) && decide (t.day ≤ daysInMonth t.year t.month) &&
  decide (t.hour ≤ 23) && decide (t.minute ≤ 59) && decide (t.second ≤ 59) &&
  decide (t.nano < 1000000000)

/-- `format_with_items(StrftimeItems::new("%Y-%m-%dT%H:%M:%S"))`: the fixed
19-character storage encoding (db.rs writes every timestamp this way). -/
def toStorage (t : DT) : List Char :=
  padNat 4 t.year ++ '-' ::
    (padNat 2 t.month ++ '-' ::
      (padNat 2 t.day ++ 'T' ::
        (padNat 2 t.hour ++ ':' ::
          (padNat 2 t.minute ++ ':' :: padNat 2 t.second))))

/-- Expect a literal character (chrono's `Item::Literal`). -/
def expectCh (c : Char) : List Char → Option (List Char)
  | [] => none
  | x :: xs => if x = c then some xs else none

/-- Parse the storage pattern `%Y-%m-%dT%H:%M:%S` back into a civil datetime
tagged UTC (the `and_utc` of `NaiveBooking::interpret_as_utc` composed with
sqlx's TEXT decoding); the sub-second part of the result is always zero. -/
def fromStorage (s : List Char) : Option DT :=
  (parseNat s).bind fun py =>
  (expectCh '-' py.2).bind fun s1 =>
  (parseNat s1).bind fun pmo =>
  (expectCh '-' pmo.2).bind fun s2 =>
  (parseNat s2).bind fun pd =>
  (expectCh 'T' pd.2).bind fun s3 =>
  (parseNat s3).bind fun ph =>
  (expectCh ':' ph.2).bind fun s4 =>
  (parseNat s4).bind fun pmi =>
  (expectCh ':' pmi.2).bind fun s5 =>
  (parseNat s5).bind fun ps =>
  if ps.2 = [] ∧ DT.isValid ⟨py.1, pmo.1, pd.1, ph.1, pmi.1, ps.1, 0⟩ = true
  then some ⟨py.1, pmo.1, pd.1, ph.1, pmi.1, ps.1, 0⟩ else none

/-- A TEXT cell is well formed if it is the storage encoding of some valid
whole-second instant (every write path of db.rs produces exactly these). -/
def WFchars (cs : List Char) : Bool :=
  match fromStorage cs with
  | some t => decide (toStorage t = cs)
  | none => false

/-! ## Instant order -/

/-- Lexicographic strict order on equal-length key lists. -/
def lexLtNat : List Nat → List Nat → Bool
  | [], [] => false
  | [], _ :: _ => true
  | _ :: _, [] => false
  | a :: as, b :: bs => decide (a < b) || (decide (a = b) && lexLtNat as bs)

/-- chrono's `<` on `DateTime<Utc>` / `NaiveDateTime`: lexicographic on the
civil fields down to nanoseconds. -/
def DT.ltB (a b : DT) : Bool :=
  lexLtNat [a.year, a.month, a.day, a.hour, a.minute, a.second, a.nano]
    [b.year, b.month, b.day, b.hour, b.minute, b.second, b.nano]

/-- chrono's `<=` on instants. -/
def DT.leB (a b : DT) : Bool := !(DT.ltB b a)

/-! ## Data model (main.rs `Booking`, the `bookings` table, db.rs operations) -/

/-- main.rs: `struct Booking` (all datetimes UTC). -/
structure Booking where
  resource_id : Int
  booking_id : Int
  title : String
  start_time : DT
  end_time : DT
deriving DecidableEq

/-- One row of the `bookings` table: `booking_id (integer primary key),
title (text), resource_id (integer), start_time (text), end_time (text)`. -/
structure Row where
  booking_id : Int
  title : String
  resource_id : Int
  start_time : List Char
  end_time : List Char
deriving DecidableEq

/-- The persisted table. `booking_id` is the primary key; stores reachable
through the API keep its values pairwise distinct. -/
abbrev Store := List Row

/-- db.rs: `enum DBError` (the wrapped `sqlx::Error` payload is dropped). -/
inductive DBError where
  | SelectBookings
  | InsertBooking
  | DeleteBooking
  | UpdateBooking
deriving DecidableEq

/-- The TEXT cells a `Booking` is written as (`format_with_items` with the
storage pattern, used identically by `insert_booking` and `update_booking`). -/
def bookingToRow (b : Booking) : Row :=
  ⟨b.booking_id, b.title, b.resource_id, toStorage b.start_time, toStorage b.end_time⟩

/-- sqlx's TEXT decoding composed with `NaiveBooking::interpret_as_utc`:
parse both cells and tag them UTC; fails (a `SelectBookings` error in the
callers) if a cell is not in the storage format. -/
def rowToBooking (r : Row) : Option Booking :=
  match fromStorage r.start_time, fromStorage r.end_time with
  | some st, some en => some ⟨r.resource_id, r.booking_id, r.title, st, en⟩
  | _, _ => none

/-- Decode every fetched row, failing if any row fails to decode. -/
def optionMapList {α β : Type} (f : α → Option β) : List α → Option (List β)
  | [] => some []
  | a :: as =>
    match f a, optionMapList f as with
    | some b, some bs => some (b :: bs)
    | _, _ => none

/-- The row filter of `get_bookings_in_timeframe`'s SQL:
`WHERE start_time <= ?end AND ?start <= end_time` (TEXT comparisons). -/
def queryRows (s : Store) (startS endS : List Char) : List Row :=
  s.filter fun r => strLeB r.start_time endS && strLeB startS r.end_time

/-- db.rs `get_bookings_in_timeframe`: format both bounds with the storage
pattern, select the rows passing the SQL filter, decode them. -/
def get_bookings_in_timeframe (s : Store) (start stop : DT) : Option (List Booking) :=
  optionMapList rowToBooking (queryRows s (toStorage start) (toStorage stop))

/-- db.rs `insert_booking`: a plain `INSERT`, which the primary key makes
fail exactly on a duplicate `booking_id`. -/
def insert_booking (s : Store) (b : Booking) : Except DBError Store :=
  if s.any fun r => decide (r.booking_id = b.booking_id) then Except.error DBError.InsertBooking
  else Except.ok (s ++ [bookingToRow b])

/-- db.rs `delete_booking`: `DELETE ... WHERE booking_id = ?`; deleting an
absent key succeeds (zero rows affected). -/
def delete_booking (s : Store) (bid : Int) : Except DBError Store :=
  Except.ok (s.filter fun r => !(decide (r.booking_id = bid)))

/-- db.rs `update_booking`: `UPDATE bookings SET title, resource_id,
start_time, end_time WHERE booking_id = ?`; affects zero rows (and still
returns `Ok`) when the key is absent. -/
def update_booking (s : Store) (b : Booking) : Except DBError Store :=
  Except.ok (s.map fun r => if r.booking_id = b.booking_id then bookingToRow b else r)

/-- The shared loop shape of `insert_bookings` / `delete_bookings` /
`update_bookings`: apply `op` to each element in order, stopping at (and
surfacing) the first error; the state reached so far is kept (each call is
an independent statement, nothing is transactional). -/
def runBatch {α : Type} (op : Store → α → Except DBError Store) :
    Store → List α → Store × Option DBError
  | s, [] => (s, none)
  | s, a :: as =>
    match op s a with
    | Except.error e => (s, some e)
    | Except.ok s1 => runBatch op s1 as

/-- db.rs `insert_bookings`. -/
def insert_bookings (s : Store) (bs : List Booking) : Store × Option DBError :=
  runBatch insert_booking s bs

/-- db.rs `delete_bookings`. -/
def delete_bookings (s : Store) (bids : List Int) : Store × Option DBError :=
  runBatch delete_booking s bids

/-- db.rs `update_bookings`. -/
def update_bookings (s : Store) (bs : List Booking) : Store × Option DBError :=
  runBatch update_booking s bs

/-- db.rs `prune_old_bookings`: truncate the current instant to the start of
the day (the code zeroes hour, minute and second but leaves the sub-second
part, which the storage formatting then drops), format it, and run
`DELETE ... WHERE end_time < ?`; returns `rows_affected()`. -/
def prune_old_bookings (now : DT) (s : Store) : Store × Nat :=
  let ts := toStorage ⟨now.year, now.month, now.day, 0, 0, 0, now.nano⟩
  (s.filter fun r => !(strLtB r.end_time ts), s.countP fun r => strLtB r.end_time ts)

/-! ## The Reconciler (pull_from_ct.rs `get_bookings_into_db`) -/

/-- The row filter a batch of `DELETE`s amounts to: keep the rows whose key
is not among the deleted ids. -/
def delPred (bids : List Int) (r : Row) : Bool := !(decide (r.booking_id ∈ bids))

/-- The row transformation a batch of `UPDATE`s with pairwise distinct keys
amounts to: replace a row by the matching booking's encoding, if any. -/
def updRow (upds : List Booking) (r : Row) : Row :=
  match upds.find? fun b => decide (b.booking_id = r.booking_id) with
  | some b => bookingToRow b
  | none => r

/-- `bookings_from_ct.iter().filter(|b| !bookings_from_db.iter().any(|x|
x.booking_id == b.booking_id))`. -/
def new_bookings (ct db : List Booking) : List Booking :=
  ct.filter fun b => !(db.any fun x => decide (x.booking_id = b.booking_id))

/-- `bookings_from_db.iter().map(|b| b.booking_id).filter(|&id|
!bookings_from_ct.iter().any(|x| x.booking_id == id))`. -/
def deprecated_bookings (ct db : List Booking) : List Int :=
  (db.map fun b => b.booking_id).filter fun bid =>
    !(ct.any fun x => decide (x.booking_id = bid))

/-- `bookings_from_ct.iter().filter(|b| bookings_from_db.iter().any(|x|
x.booking_id == b.booking_id && x != *b))`. -/
def changed_bookings (ct db : List Booking) : List Booking :=
  ct.filter fun b =>
    db.any fun x => decide (x.booking_id = b.booking_id) && !(decide (x = b))

/-- pull_from_ct.rs `get_bookings_into_db`, with the remote fetch abstracted
to the list it returned and the query window (its `and_time` bounds) passed
in: read the window from the db, then apply inserts, deletes and updates in
that order, stopping at the first error.  Returns the db state reached and
the error, if any (the Rust function mutates the db in place and returns
`Result<(), GatherError>`). -/
def get_bookings_into_db (remote : List Booking) (ws we : DT) (s : Store) :
    Store × Option DBError :=
  match get_bookings_in_timeframe s ws we with
  | none => (s, some DBError.SelectBookings)
  | some localB =>
    let p1 := insert_bookings s (new_bookings remote localB)
    match p1.2 with
    | some e => (p1.1, some e)
    | none =>
      let p2 := delete_bookings p1.1 (deprecated_bookings remote localB)
      match p2.2 with
      | some e => (p2.1, some e)
      | none => update_bookings p2.1 (changed_bookings remote localB)

/-! ## pull_from_ct.rs `keep_db_up_to_date` (the sync loop) -/

/-- pull_from_ct.rs: `enum CTApiError` (payloads dropped). -/
inductive CTApiError where
  | GetBookings
  | Deserialize
  | Utf8Decode
  | ParseTime
deriving DecidableEq

/-- pull_from_ct.rs: `enum GatherError`. -/
inductive GatherError where
  | DB (e : DBError)
  | CT (e : CTApiError)
deriving DecidableEq

/-- The environment's contribution to one iteration of the loop: the result
of `get_bookings_into_db`, the result of `prune_old_bookings`, and which arm
of the final `select!` completes first (`shutdown = true` means the
`watcher.changed()` arm, `false` the `interval.tick()` arm). -/
structure CycleInput where
  gather : Except GatherError Unit
  prune : Except DBError Nat
  shutdown : Bool

/-- The `match` on the gather result: both arms only log. -/
def log_gather_result : Except GatherError Unit → Unit
  | Except.ok _ => ()
  | Except.error _ => ()

/-- The `match` on the prune result: all arms only log. -/
def log_prune_result : Except DBError Nat → Unit
  | Except.ok _ => ()
  | Except.error _ => ()

inductive LoopAction where
  | stop
  | tick
deriving DecidableEq

/-- One iteration of the `loop` body: run the two logging matches, then
`select!` between the shutdown watcher (which makes the task `return`) and
the interval tick (which continues the loop). -/
def sync_cycle_step (c : CycleInput) : LoopAction :=
  match log_gather_result c.gather, log_prune_result c.prune with
  | (), () => if c.shutdown then LoopAction.stop else LoopAction.tick

/-- Run the loop against a finite schedule of cycle inputs: `true` iff the
loop body returned within the schedule (the only way the task ends). -/
def keep_db_up_to_date_returns : List CycleInput → Bool
  | [] => false
  | c :: cs =>
    match sync_cycle_step c with
    | LoopAction.stop => true
    | LoopAction.tick => keep_db_up_to_date_returns cs

/-! ## Shutdown coordination (main.rs `signal_handler`, web/mod.rs) -/

/-- main.rs: `enum InShutdown`. -/
inductive InShutdown where
  | Yes
  | No
deriving DecidableEq

/-- Every call site of `shutdown_tx.send_replace` in the program: the three
failed listener installations and the four signal arms in
`signal_handler` (main.rs), and the two failed-server arms in
`run_web_server` (web/mod.rs). -/
inductive ShutdownTrigger where
  | sigtermInstallFailed
  | sighupInstallFailed
  | sigintInstallFailed
  | sigterm
  | sighup
  | sigint
  | ctrlC
  | ctrlCListenFailed
  | httpServerFailed
  | httpsServerFailed
deriving DecidableEq

/-- The argument each call site passes to `send_replace`: every site sends
`InShutdown::Yes`. -/
def trigger_payload : ShutdownTrigger → InShutdown
  | ShutdownTrigger.sigtermInstallFailed => InShutdown.Yes
  | ShutdownTrigger.sighupInstallFailed => InShutdown.Yes
  | ShutdownTrigger.sigintInstallFailed => InShutdown.Yes
  | ShutdownTrigger.sigterm => InShutdown.Yes
  | ShutdownTrigger.sighup => InShutdown.Yes
  | ShutdownTrigger.sigint => InShutdown.Yes
  | ShutdownTrigger.ctrlC => InShutdown.Yes
  | ShutdownTrigger.ctrlCListenFailed => InShutdown.Yes
  | ShutdownTrigger.httpServerFailed => InShutdown.Yes
  | ShutdownTrigger.httpsServerFailed => InShutdown.Yes

/-- `tokio::sync::watch::Sender::send_replace`: atomically replace the
channel value. -/
def send_replace (_current : InShutdown) (v : InShutdown) : InShutdown := v

/-- The channel value after a sequence of trigger firings.  `send_replace`
is atomic, so any concurrent execution of triggers is some such sequence;
the channel starts at `InShutdown::No` (`watch::channel(InShutdown::No)`). -/
def run_triggers (init : InShutdown) (ts : List ShutdownTrigger) : InShutdown :=
  ts.foldl (fun st t => send_replace st (trigger_payload t)) init

/-! ## config.rs `ChurchToolsConfig` and its `Debug` impl -/

structure ChurchToolsConfig where
  host : String
  login_token : String
  ct_pull_frequency : Nat

/-- Rust's `Debug` for strings: quoted, with quotes and backslashes escaped
(escaping of other control characters is elided; it plays no role in the
redaction property). -/
def rustDebugStr (s : String) : String :=
  String.mk (Char.ofNat 34 :: (s.data.foldr (fun c acc =>
    (if c = Char.ofNat 34 || c = Char.ofNat 92
      then [Char.ofNat 92, c] else [c]) ++ acc) [Char.ofNat 34]))

/-- Decimal rendering of the `u64` field. -/
def natToStr (n : Nat) : String := String.mk (if n = 0 then ['0'] else natChars n)

/-- config.rs `impl core::fmt::Debug for ChurchToolsConfig`: `debug_struct`
prints `host` and `ct_pull_frequency` as given, and the fixed literal
`"[redacated]"` (sic) instead of `login_token`. -/
def churchToolsConfigDebug (c : ChurchToolsConfig) : String :=
  "ChurchToolsConfig \x7b host: " ++ rustDebugStr c.host ++
  ", login_token: " ++ rustDebugStr ("[redacated]") ++
  ", ct_pull_frequency: " ++ natToStr c.ct_pull_frequency ++ " \x7d"

/-! ## Concrete data for the example instances -/

/-- A remote booking (the spec's insert scenario: id 123, resource 10,
2021-03-26 15:30..17:00 UTC). -/
def bkA : Booking :=
  ⟨10, 123, "t", ⟨2021, 3, 26, 15, 30, 0, 0⟩, ⟨2021, 3, 26, 17, 0, 0, 0⟩⟩

/-- A booking present remotely and locally, with a changed title remotely. -/
def bkB : Booking :=
  ⟨11, 124, "b", ⟨2021, 3, 26, 15, 30, 0, 0⟩, ⟨2021, 3, 26, 17, 0, 0, 0⟩⟩

/-- The local (stale) copy of `bkB`. -/
def bkBold : Booking :=
  ⟨11, 124, "old", ⟨2021, 3, 26, 15, 30, 0, 0⟩, ⟨2021, 3, 26, 17, 0, 0, 0⟩⟩

/-- A booking only present locally. -/
def bkC : Booking :=
  ⟨12, 125, "c", ⟨2021, 3, 28, 15, 30, 0, 0⟩, ⟨2021, 3, 28, 17, 0, 0, 0⟩⟩

/-- A booking present identically on both sides. -/
def bkD : Booking :=
  ⟨13, 126, "d", ⟨2021, 3, 26, 18, 0, 0, 0⟩, ⟨2021, 3, 26, 19, 0, 0, 0⟩⟩

/-- `bkA` with a sub-second start time (15:30:00.5). -/
def bkSub : Booking :=
  ⟨10, 123, "t", ⟨2021, 3, 26, 15, 30, 0, 500000000⟩, ⟨2021, 3, 26, 17, 0, 0, 0⟩⟩

/-- A row ending exactly at the midnight starting 2021-03-27. -/
def rowMid : Row :=
  ⟨200, "m", 10, toStorage ⟨2021, 3, 26, 23, 0, 0, 0⟩, toStorage ⟨2021, 3, 27, 0, 0, 0, 0⟩⟩

/-- A row ending one second before that midnight. -/
def rowOld : Row :=
  ⟨201, "o", 10, toStorage ⟨2021, 3, 26, 22, 0, 0, 0⟩, toStorage ⟨2021, 3, 26, 23, 59, 59, 0⟩⟩

/-- A row whose booking runs 14:00–15:00 on 2021-03-26. -/
def rowEnds1500 : Row :=
  ⟨1, "q", 10, toStorage ⟨2021, 3, 26, 14, 0, 0, 0⟩, toStorage ⟨2021, 3, 26, 15, 0, 0, 0⟩⟩

/-! ## Theorems -/

theorem digCh_toNat {d : Nat} (h : d < 10) : (digCh d).toNat = 48 + d := by
  interval_cases d <;> decide

theorem isDigCh_digCh {d : Nat} (h : d < 10) : isDigCh (digCh d) = true := by
  interval_cases d <;> decide

theorem digitsF_all_lt (fuel n : Nat) : ∀ d ∈ digitsF fuel n, d < 10 := by
  induction fuel generalizing n with
  | zero => simp [digitsF]
  | succ fuel ih =>
    intro d hd
    simp only [digitsF] at hd
    split at hd
    · simp at hd
    · rcases List.mem_cons.mp hd with h | h
      · subst h; exact Nat.mod_lt _ (by omega)
      · exact ih _ d h

theorem vaL_digitsF (fuel n : Nat) (h : n ≤ fuel) : vaL (digitsF fuel n) = n := by
  induction fuel generalizing n with
  | zero => simp only [digitsF, vaL]; omega
  | succ fuel ih =>
    simp only [digitsF]
    split
    · simp only [vaL]; omega
    · rename_i hn
      have hdiv : n / 10 ≤ fuel := by
        have : n / 10 < n := Nat.div_lt_self (by omega) (by omega)
        omega
      simp only [vaL, ih _ hdiv]
      omega

theorem digitsF_length (fuel n w : Nat) (hf : n ≤ fuel) (h : n < 10 ^ w) :
    (digitsF fuel n).length ≤ w := by
  induction fuel generalizing n w with
  | zero => simp [digitsF]
  | succ fuel ih =>
    simp only [digitsF]
    split
    · simp
    · rename_i hn
      match w with
      | 0 => simp at h; omega
      | w + 1 =>
        have hdiv : n / 10 ≤ fuel := by
          have : n / 10 < n := Nat.div_lt_self (by omega) (by omega)
          omega
        have hlt : n / 10 < 10 ^ w := by
          apply Nat.div_lt_of_lt_mul
          calc n < 10 ^ (w + 1) := h
            _ = 10 * 10 ^ w := by ring
        simpa using ih _ w hdiv hlt

theorem natChars_length {n w : Nat} (h : n < 10 ^ w) : (natChars n).length ≤ w := by
  simpa [natChars] using digitsF_length n n w (Nat.le_refl n) h

theorem natChars_all_digits (n : Nat) : ∀ c ∈ natChars n, isDigCh c = true := by
  intro c hc
  simp only [natChars, List.mem_reverse, List.mem_map] at hc
  obtain ⟨d, hd, rfl⟩ := hc
  exact isDigCh_digCh (digitsF_all_lt n n d hd)

theorem padNat_all_digits (w n : Nat) : ∀ c ∈ padNat w n, isDigCh c = true := by
  intro c hc
  simp only [padNat, List.mem_append] at hc
  rcases hc with h | h
  · have := List.eq_of_mem_replicate h
    subst this; decide
  · exact natChars_all_digits n c h

theorem padNat_length {w n : Nat} (h : n < 10 ^ w) : (padNat w n).length = w := by
  have hle := natChars_length h
  simp only [padNat, List.length_append, List.length_replicate]
  omega

theorem valC_nil (acc : Nat) : valC acc [] = acc := rfl

theorem valC_cons (acc : Nat) (c : Char) (cs : List Char) :
    valC acc (c :: cs) = valC (acc * 10 + (c.toNat - 48)) cs := rfl

theorem valN_nil (acc : Nat) : valN acc [] = acc := rfl

theorem valN_cons (acc d : Nat) (ds : List Nat) :
    valN acc (d :: ds) = valN (acc * 10 + d) ds := rfl

theorem valC_append (acc : Nat) (a b : List Char) :
    valC acc (a ++ b) = valC (valC acc a) b := by
  induction a generalizing acc with
  | nil => rfl
  | cons c cs ih => rw [List.cons_append, valC_cons, valC_cons, ih]

theorem valN_append (acc : Nat) (a b : List Nat) :
    valN acc (a ++ b) = valN (valN acc a) b := by
  induction a generalizing acc with
  | nil => rfl
  | cons d ds ih => rw [List.cons_append, valN_cons, valN_cons, ih]

theorem valC_map_digCh (acc : Nat) (l : List Nat) (h : ∀ d ∈ l, d < 10) :
    valC acc (l.map digCh) = valN acc l := by
  induction l generalizing acc with
  | nil => rfl
  | cons d ds ih =>
    have hd : d < 10 := h d (by simp)
    rw [List.map_cons, valC_cons, valN_cons, digCh_toNat hd,
      ih _ fun x hx => h x (by simp [hx])]
    congr 1
    omega

theorem valN_reverse (acc : Nat) (l : List Nat) :
    valN acc l.reverse = acc * 10 ^ l.length + vaL l := by
  induction l generalizing acc with
  | nil => simp [valN_nil, vaL]
  | cons d ds ih =>
    rw [List.reverse_cons, valN_append, ih]
    simp only [valN_cons, valN_nil, vaL, List.length_cons]
    ring

theorem valC_natChars (acc n : Nat) :
    valC acc (natChars n) = acc * 10 ^ (natChars n).length + n := by
  have hlt := digitsF_all_lt n n
  have : natChars n = ((digitsF n n).reverse).map digCh := by
    simp [natChars, List.map_reverse]
  rw [this, valC_map_digCh _ _ (by intro d hd; exact hlt d (List.mem_reverse.mp hd)),
    valN_reverse, vaL_digitsF n n (Nat.le_refl n)]
  simp

theorem valC_replicate_zero (acc k : Nat) :
    valC acc (List.replicate k '0') = acc * 10 ^ k := by
  induction k generalizing acc with
  | zero => simp [valC_nil]
  | succ k ih =>
    rw [List.replicate_succ, valC_cons, ih]
    have h0 : ('0'.toNat - 48) = 0 := by decide
    rw [h0]
    ring

theorem valC_padNat (w n : Nat) : valC 0 (padNat w n) = n := by
  simp [padNat, valC_append, valC_replicate_zero, valC_natChars]

theorem parseNatAcc_nil (acc : Nat) : parseNatAcc acc [] = (acc, []) := rfl

theorem parseNatAcc_cons (acc : Nat) (c : Char) (cs : List Char) :
    parseNatAcc acc (c :: cs) =
      if isDigCh c then parseNatAcc (acc * 10 + (c.toNat - 48)) cs else (acc, c :: cs) := rfl

theorem parseNatAcc_digits (acc : Nat) (ds rest : List Char)
    (h : ∀ c ∈ ds, isDigCh c = true) :
    parseNatAcc acc (ds ++ rest) = parseNatAcc (valC acc ds) rest := by
  induction ds generalizing acc with
  | nil => rfl
  | cons c cs ih =>
    rw [List.cons_append, parseNatAcc_cons, if_pos (h c (by simp)), valC_cons,
      ih _ fun x hx => h x (by simp [hx])]

theorem parseNatAcc_stop (acc : Nat) (c : Char) (rest : List Char)
    (h : isDigCh c = false) :
    parseNatAcc acc (c :: rest) = (acc, c :: rest) := by
  rw [parseNatAcc_cons, if_neg (by simp [h])]

theorem padNat_ne_nil {w n : Nat} (hw : 0 < w) : padNat w n ≠ [] := by
  intro h
  have : (padNat w n).length = 0 := by rw [h]; rfl
  simp only [padNat, List.length_append, List.length_replicate] at this
  omega

theorem parseNat_pad_sep {w n : Nat} (hw : 0 < w) (_h : n < 10 ^ w)
    (c : Char) (hc : isDigCh c = false) (rest : List Char) :
    parseNat (padNat w n ++ c :: rest) = some (n, c :: rest) := by
  obtain ⟨d, ds, hds⟩ : ∃ d ds, padNat w n = d :: ds := by
    cases hpn : padNat w n with
    | nil => exact absurd hpn (padNat_ne_nil hw)
    | cons d ds => exact ⟨d, ds, rfl⟩
  have hd : isDigCh d = true := padNat_all_digits w n d (by rw [hds]; simp)
  have hall : ∀ x ∈ padNat w n, isDigCh x = true := padNat_all_digits w n
  rw [hds, List.cons_append]
  show parseNat (d :: (ds ++ c :: rest)) = some (n, c :: rest)
  rw [show parseNat (d :: (ds ++ c :: rest)) =
      if isDigCh d then some (parseNatAcc 0 (d :: (ds ++ c :: rest))) else none from rfl,
    if_pos hd]
  have : (d :: (ds ++ c :: rest)) = (d :: ds) ++ c :: rest := by simp
  rw [this, parseNatAcc_digits 0 (d :: ds) (c :: rest) (by rw [← hds]; exact hall),
    parseNatAcc_stop _ _ _ hc, ← hds, valC_padNat]

theorem parseNat_pad_end {w n : Nat} (hw : 0 < w) (_h : n < 10 ^ w) :
    parseNat (padNat w n) = some (n, []) := by
  obtain ⟨d, ds, hds⟩ : ∃ d ds, padNat w n = d :: ds := by
    cases hpn : padNat w n with
    | nil => exact absurd hpn (padNat_ne_nil hw)
    | cons d ds => exact ⟨d, ds, rfl⟩
  have hd : isDigCh d = true := padNat_all_digits w n d (by rw [hds]; simp)
  have hall : ∀ x ∈ padNat w n, isDigCh x = true := padNat_all_digits w n
  rw [hds]
  show (if isDigCh d then some (parseNatAcc 0 (d :: ds)) else none) = some (n, [])
  rw [if_pos hd]
  have : (d :: ds) = (d :: ds) ++ ([] : List Char) := by simp
  rw [this, parseNatAcc_digits 0 (d :: ds) [] (by rw [← hds]; exact hall),
    parseNatAcc_nil, ← hds, valC_padNat]

theorem strLtB_cons_cons (a b : Char) (as bs : List Char) :
    strLtB (a :: as) (b :: bs) =
      (decide (a.toNat < b.toNat) || (decide (a.toNat = b.toNat) && strLtB as bs)) := rfl

theorem strLtB_cons_same (c : Char) (as bs : List Char) :
    strLtB (c :: as) (c :: bs) = strLtB as bs := by
  rw [strLtB_cons_cons]
  simp

theorem valC_zero_split (l : List Char) (acc : Nat) :
    valC acc l = acc * 10 ^ l.length + valC 0 l := by
  induction l generalizing acc with
  | nil => simp [valC_nil]
  | cons c cs ih =>
    rw [valC_cons, valC_cons, ih, ih (0 * 10 + (c.toNat - 48))]
    simp only [List.length_cons]
    ring

theorem valC_lt_bound (l : List Char) (h : ∀ c ∈ l, isDigCh c = true) :
    valC 0 l < 10 ^ l.length := by
  induction l with
  | nil => simp [valC_nil]
  | cons c cs ih =>
    have hc : isDigCh c = true := h c (by simp)
    have hc9 : c.toNat - 48 ≤ 9 := by
      simp only [isDigCh, Bool.and_eq_true, decide_eq_true_eq] at hc
      omega
    rw [valC_cons, valC_zero_split]
    have hcs := ih fun x hx => h x (by simp [hx])
    simp only [List.length_cons]
    calc (0 * 10 + (c.toNat - 48)) * 10 ^ cs.length + valC 0 cs
        ≤ 9 * 10 ^ cs.length + valC 0 cs := by
          have : (0 * 10 + (c.toNat - 48)) ≤ 9 := by omega
          exact Nat.add_le_add_right (Nat.mul_le_mul_right _ this) _
      _ < 9 * 10 ^ cs.length + 10 ^ cs.length := by omega
      _ = 10 ^ (cs.length + 1) := by ring

/-- Comparing two strings that start with equal-width digit blocks is
deciding on the blocks' values first, then on the suffixes. -/
theorem strLtB_seg (a : List Char) : ∀ (b s1 s2 : List Char),
    (∀ c ∈ a, isDigCh c = true) → (∀ c ∈ b, isDigCh c = true) →
    a.length = b.length →
    strLtB (a ++ s1) (b ++ s2) =
      (decide (valC 0 a < valC 0 b) ||
        (decide (valC 0 a = valC 0 b) && strLtB s1 s2)) := by
  induction a with
  | nil =>
    intro b s1 s2 _ _ hlen
    cases b with
    | nil => simp [valC_nil]
    | cons d ds => simp at hlen
  | cons c cs ih =>
    intro b s1 s2 ha hb hlen
    cases b with
    | nil => simp at hlen
    | cons d ds =>
      have hlen' : cs.length = ds.length := by simpa using hlen
      have hc : isDigCh c = true := ha c (by simp)
      have hd : isDigCh d = true := hb d (by simp)
      have hc48 : 48 ≤ c.toNat ∧ c.toNat ≤ 57 := by
        simpa only [isDigCh, Bool.and_eq_true, decide_eq_true_eq] using hc
      have hd48 : 48 ≤ d.toNat ∧ d.toNat ≤ 57 := by
        simpa only [isDigCh, Bool.and_eq_true, decide_eq_true_eq] using hd
      have hvc : valC 0 (c :: cs) = (c.toNat - 48) * 10 ^ cs.length + valC 0 cs := by
        rw [valC_cons, valC_zero_split]; ring_nf
      have hvd : valC 0 (d :: ds) = (d.toNat - 48) * 10 ^ ds.length + valC 0 ds := by
        rw [valC_cons, valC_zero_split]; ring_nf
      have hbc := valC_lt_bound cs fun x hx => ha x (by simp [hx])
      have hbd := valC_lt_bound ds fun x hx => hb x (by simp [hx])
      rw [List.cons_append, List.cons_append, strLtB_cons_cons,
        ih ds s1 s2 (fun x hx => ha x (by simp [hx])) (fun x hx => hb x (by simp [hx])) hlen']
      rcases Nat.lt_trichotomy c.toNat d.toNat with h | h | h
      · have hlt : valC 0 (c :: cs) < valC 0 (d :: ds) := by
          rw [hvc, hvd, ← hlen']
          have h1 : (c.toNat - 48) + 1 ≤ d.toNat - 48 := by omega
          calc (c.toNat - 48) * 10 ^ cs.length + valC 0 cs
              < (c.toNat - 48) * 10 ^ cs.length + 10 ^ cs.length :=
                Nat.add_lt_add_left hbc _
            _ = ((c.toNat - 48) + 1) * 10 ^ cs.length := by ring
            _ ≤ (d.toNat - 48) * 10 ^ cs.length := Nat.mul_le_mul_right _ h1
            _ ≤ (d.toNat - 48) * 10 ^ cs.length + valC 0 ds := Nat.le_add_right _ _
        simp [h, hlt]
      · have heq1 : (valC 0 (c :: cs) < valC 0 (d :: ds)) ↔ valC 0 cs < valC 0 ds := by
          rw [hvc, hvd, h, ← hlen']
          exact add_lt_add_iff_left _
        have heq2 : (valC 0 (c :: cs) = valC 0 (d :: ds)) ↔ valC 0 cs = valC 0 ds := by
          rw [hvc, hvd, h, ← hlen']
          exact add_right_inj _
        simp [h, heq1, heq2]
      · have hlt : valC 0 (d :: ds) < valC 0 (c :: cs) := by
          rw [hvc, hvd, ← hlen']
          have h1 : (d.toNat - 48) + 1 ≤ c.toNat - 48 := by omega
          calc (d.toNat - 48) * 10 ^ cs.length + valC 0 ds
              < (d.toNat - 48) * 10 ^ cs.length + 10 ^ cs.length := by
                rw [hlen']
                exact Nat.add_lt_add_left hbd _
            _ = ((d.toNat - 48) + 1) * 10 ^ cs.length := by ring
            _ ≤ (c.toNat - 48) * 10 ^ cs.length := Nat.mul_le_mul_right _ h1
            _ ≤ (c.toNat - 48) * 10 ^ cs.length + valC 0 cs := Nat.le_add_right _ _
        have hn1 : ¬ (valC 0 (c :: cs) < valC 0 (d :: ds)) := Nat.lt_asymm hlt
        have hn2 : valC 0 (c :: cs) ≠ valC 0 (d :: ds) := (Nat.ne_of_lt hlt).symm
        have hn3 : ¬ (c.toNat < d.toNat) := by omega
        have hn4 : c.toNat ≠ d.toNat := by omega
        simp [hn1, hn2, hn3, hn4]

theorem daysInMonth_le_31 (y m : Nat) : daysInMonth y m ≤ 31 := by
  unfold daysInMonth
  split_ifs <;> omega

theorem isValid_bounds {t : DT} (h : t.isValid = true) :
    t.year ≤ 9999 ∧ 1 ≤ t.month ∧ t.month ≤ 12 ∧ 1 ≤ t.day ∧ t.day ≤ 31 ∧
    t.hour ≤ 23 ∧ t.minute ≤ 59 ∧ t.second ≤ 59 ∧ t.nano < 1000000000 := by
  simp only [DT.isValid, Bool.and_eq_true, decide_eq_true_eq] at h
  have := daysInMonth_le_31 t.year t.month
  omega

theorem expectCh_cons_self (c : Char) (xs : List Char) :
    expectCh c (c :: xs) = some xs := by
  simp [expectCh]

/-- Round trip of the storage encoding for whole-second instants. -/
theorem fromStorage_toStorage {t : DT} (hv : t.isValid = true) (hn : t.nano = 0) :
    fromStorage (toStorage t) = some t := by
  obtain ⟨hy, hm1, hm2, hd1, hd2, hh, hmi, hs, _⟩ := isValid_bounds hv
  obtain ⟨y, mo, d, h, mi, s, n⟩ := t
  simp only at hy hm1 hm2 hd1 hd2 hh hmi hs
  simp only at hn
  subst hn
  simp only [toStorage, fromStorage]
  rw [parseNat_pad_sep (by omega) (by omega : y < 10 ^ 4) '-' (by decide)]
  simp only [Option.some_bind]
  rw [expectCh_cons_self]
  simp only [Option.some_bind]
  rw [parseNat_pad_sep (by omega) (by omega : mo < 10 ^ 2) '-' (by decide)]
  simp only [Option.some_bind]
  rw [expectCh_cons_self]
  simp only [Option.some_bind]
  rw [parseNat_pad_sep (by omega) (by omega : d < 10 ^ 2) 'T' (by decide)]
  simp only [Option.some_bind]
  rw [expectCh_cons_self]
  simp only [Option.some_bind]
  rw [parseNat_pad_sep (by omega) (by omega : h < 10 ^ 2) ':' (by decide)]
  simp only [Option.some_bind]
  rw [expectCh_cons_self]
  simp only [Option.some_bind]
  rw [parseNat_pad_sep (by omega) (by omega : mi < 10 ^ 2) ':' (by decide)]
  simp only [Option.some_bind]
  rw [expectCh_cons_self]
  simp only [Option.some_bind]
  rw [parseNat_pad_end (by omega) (by omega : s < 10 ^ 2)]
  simp [hv]

/-- Whatever `fromStorage` accepts is a valid whole-second instant. -/
theorem fromStorage_sound {cs : List Char} {t : DT} (h : fromStorage cs = some t) :
    t.isValid = true ∧ t.nano = 0 := by
  simp only [fromStorage, Option.bind_eq_some] at h
  obtain ⟨py, _, h⟩ := h
  obtain ⟨s1, _, h⟩ := h
  obtain ⟨pmo, _, h⟩ := h
  obtain ⟨s2, _, h⟩ := h
  obtain ⟨pd, _, h⟩ := h
  obtain ⟨s3, _, h⟩ := h
  obtain ⟨ph, _, h⟩ := h
  obtain ⟨s4, _, h⟩ := h
  obtain ⟨pmi, _, h⟩ := h
  obtain ⟨s5, _, h⟩ := h
  obtain ⟨ps, _, h⟩ := h
  split at h
  · rename_i hcond
    cases h
    exact ⟨hcond.2, rfl⟩
  · cases h

theorem WFchars_spec {cs : List Char} (h : WFchars cs = true) :
    ∃ t : DT, t.isValid = true ∧ t.nano = 0 ∧ cs = toStorage t ∧
      fromStorage cs = some t := by
  unfold WFchars at h
  split at h
  · rename_i t ht
    obtain ⟨hv, hn⟩ := fromStorage_sound ht
    exact ⟨t, hv, hn, (decide_eq_true_eq.mp h).symm, ht⟩
  · cases h

theorem WFchars_toStorage {t : DT} (hv : t.isValid = true) (hn : t.nano = 0) :
    WFchars (toStorage t) = true := by
  unfold WFchars
  rw [fromStorage_toStorage hv hn]
  simp

theorem strLtB_pad (w n m : Nat) (hn : n < 10 ^ w) (hm : m < 10 ^ w)
    (s1 s2 : List Char) :
    strLtB (padNat w n ++ s1) (padNat w m ++ s2) =
      (decide (n < m) || (decide (n = m) && strLtB s1 s2)) := by
  rw [strLtB_seg _ _ s1 s2 (padNat_all_digits _ _) (padNat_all_digits _ _)
    (by rw [padNat_length hn, padNat_length hm]), valC_padNat, valC_padNat]

/-- On valid instants, SQLite's TEXT comparison of the storage encodings is
exactly chrono's order on the instants truncated to whole seconds. -/
theorem strLtB_toStorage {t1 t2 : DT} (h1 : t1.isValid = true) (h2 : t2.isValid = true) :
    strLtB (toStorage t1) (toStorage t2) =
      lexLtNat [t1.year, t1.month, t1.day, t1.hour, t1.minute, t1.second]
        [t2.year, t2.month, t2.day, t2.hour, t2.minute, t2.second] := by
  obtain ⟨hy, hm1, hm2, hd1, hd2, hh, hmi, hs, _⟩ := isValid_bounds h1
  obtain ⟨gy, gm1, gm2, gd1, gd2, gh, gmi, gs, _⟩ := isValid_bounds h2
  simp only [toStorage]
  rw [strLtB_pad 4 _ _ (by omega) (by omega), strLtB_cons_same,
    strLtB_pad 2 _ _ (by omega) (by omega), strLtB_cons_same,
    strLtB_pad 2 _ _ (by omega) (by omega), strLtB_cons_same,
    strLtB_pad 2 _ _ (by omega) (by omega), strLtB_cons_same,
    strLtB_pad 2 _ _ (by omega) (by omega), strLtB_cons_same,
    ← List.append_nil (padNat 2 t1.second), ← List.append_nil (padNat 2 t2.second),
    strLtB_pad 2 _ _ (by omega) (by omega)]
  simp only [lexLtNat]
  rfl

/-- `DT.ltB` on whole-second instants ignores the nanosecond component. -/
theorem ltB_eq_lex6 {a b : DT} (ha : a.nano = 0) (hb : b.nano = 0) :
    DT.ltB a b =
      lexLtNat [a.year, a.month, a.day, a.hour, a.minute, a.second]
        [b.year, b.month, b.day, b.hour, b.minute, b.second] := by
  simp only [DT.ltB, ha, hb, lexLtNat]
  simp

/-- Main order correspondence used by the query and prune theorems. -/
theorem strLtB_toStorage_eq_ltB {t1 t2 : DT}
    (h1 : t1.isValid = true) (h2 : t2.isValid = true)
    (n1 : t1.nano = 0) (n2 : t2.nano = 0) :
    strLtB (toStorage t1) (toStorage t2) = DT.ltB t1 t2 := by
  rw [strLtB_toStorage h1 h2, ltB_eq_lex6 n1 n2]

theorem strLeB_toStorage_eq_leB {t1 t2 : DT}
    (h1 : t1.isValid = true) (h2 : t2.isValid = true)
    (n1 : t1.nano = 0) (n2 : t2.nano = 0) :
    strLeB (toStorage t1) (toStorage t2) = DT.leB t1 t2 := by
  simp only [strLeB, DT.leB, strLtB_toStorage_eq_ltB h2 h1 n2 n1]

/-! ## Supporting lemmas about the store operations -/

theorem optionMapList_mem {α β : Type} (f : α → Option β) (l : List α) (L : List β)
    (h : optionMapList f l = some L) (x : β) :
    x ∈ L ↔ ∃ a ∈ l, f a = some x := by
  induction l generalizing L with
  | nil =>
    simp only [optionMapList, Option.some_inj] at h
    subst h
    simp
  | cons a as ih =>
    simp only [optionMapList] at h
    cases hfa : f a with
    | none => rw [hfa] at h; simp at h
    | some b =>
      rw [hfa] at h
      cases hrest : optionMapList f as with
      | none => rw [hrest] at h; simp at h
      | some bs =>
        rw [hrest] at h
        simp only [Option.some_inj] at h
        subst h
        simp only [List.mem_cons, ih bs hrest]
        constructor
        · rintro (rfl | ⟨a1, ha1, hfa1⟩)
          · exact ⟨a, by simp, hfa⟩
          · exact ⟨a1, by simp [ha1], hfa1⟩
        · rintro ⟨a1, ha1, hfa1⟩
          rcases ha1 with rfl | ha1
          · left; rw [hfa] at hfa1; exact (Option.some_inj.mp hfa1).symm
          · right; exact ⟨a1, ha1, hfa1⟩

theorem optionMapList_isSome {α β : Type} (f : α → Option β) (l : List α)
    (h : ∀ a ∈ l, ∃ y, f a = some y) : ∃ L, optionMapList f l = some L := by
  induction l with
  | nil => exact ⟨[], rfl⟩
  | cons a as ih =>
    obtain ⟨y, hy⟩ := h a (by simp)
    obtain ⟨L, hL⟩ := ih fun x hx => h x (by simp [hx])
    exact ⟨y :: L, by simp [optionMapList, hy, hL]⟩

theorem optionMapList_map {α β γ : Type} (f : α → Option β) (l : List α) (L : List β)
    (g : β → γ) (gl : α → γ) (h : optionMapList f l = some L)
    (hc : ∀ a y, f a = some y → g y = gl a) : L.map g = l.map gl := by
  induction l generalizing L with
  | nil =>
    simp only [optionMapList, Option.some_inj] at h
    subst h
    rfl
  | cons a as ih =>
    simp only [optionMapList] at h
    cases hfa : f a with
    | none => rw [hfa] at h; simp at h
    | some b =>
      rw [hfa] at h
      cases hrest : optionMapList f as with
      | none => rw [hrest] at h; simp at h
      | some bs =>
        rw [hrest] at h
        simp only [Option.some_inj] at h
        subst h
        simp only [List.map_cons, ih bs hrest, hc a b hfa]

theorem runBatch_nil {α : Type} (op : Store → α → Except DBError Store) (s : Store) :
    runBatch op s [] = (s, none) := rfl

theorem runBatch_cons {α : Type} (op : Store → α → Except DBError Store)
    (s : Store) (a : α) (as : List α) :
    runBatch op s (a :: as) =
      match op s a with
      | Except.error e => (s, some e)
      | Except.ok s1 => runBatch op s1 as := rfl

/-- The batch loops are not transactional: once an element fails, the
elements already processed stay applied, the failing element's error is
surfaced, and nothing after it is attempted (the result does not depend on
`post` at all). -/
theorem runBatch_stops_at_error {α : Type} (op : Store → α → Except DBError Store)
    (s s1 : Store) (pre : List α) (bad : α) (post : List α) (e : DBError)
    (hpre : runBatch op s pre = (s1, none)) (hbad : op s1 bad = Except.error e) :
    runBatch op s (pre ++ bad :: post) = (s1, some e) := by
  induction pre generalizing s with
  | nil =>
    simp only [runBatch_nil, Prod.mk.injEq] at hpre
    obtain ⟨rfl, -⟩ := hpre
    simp [runBatch_cons, hbad]
  | cons p ps ih =>
    rw [List.cons_append]
    rw [runBatch_cons] at hpre ⊢
    cases hop : op s p with
    | error e1 => simp only [hop] at hpre; simp at hpre
    | ok s2 =>
      simp only [hop] at hpre ⊢
      exact ih s2 hpre

theorem insert_booking_ok_shape {s s1 : Store} {b : Booking}
    (hop : insert_booking s b = Except.ok s1) :
    s1 = s ++ [bookingToRow b] ∧ ∀ r ∈ s, r.booking_id ≠ b.booking_id := by
  unfold insert_booking at hop
  split at hop
  · simp at hop
  · rename_i hnc
    refine ⟨by cases hop; rfl, ?_⟩
    intro r hr
    simp only [List.any_eq_true, decide_eq_true_eq] at hnc
    push_neg at hnc
    exact hnc r hr

theorem insert_bookings_ok (s : Store) (l : List Booking)
    (h : (insert_bookings s l).2 = none) :
    (insert_bookings s l).1 = s ++ l.map bookingToRow := by
  induction l generalizing s with
  | nil => simp [insert_bookings, runBatch_nil]
  | cons b bs ih =>
    simp only [insert_bookings, runBatch_cons] at h ⊢
    cases hop : insert_booking s b with
    | error e => simp only [hop] at h; simp at h
    | ok s1 =>
      simp only [hop] at h ⊢
      obtain ⟨rfl, -⟩ := insert_booking_ok_shape hop
      rw [show runBatch insert_booking (s ++ [bookingToRow b]) bs =
        insert_bookings (s ++ [bookingToRow b]) bs from rfl] at h ⊢
      rw [ih _ h]
      simp

theorem insert_bookings_nodup (s : Store) (l : List Booking)
    (hs : (s.map fun r => r.booking_id).Nodup)
    (h : (insert_bookings s l).2 = none) :
    (((insert_bookings s l).1).map fun r => r.booking_id).Nodup := by
  induction l generalizing s with
  | nil => simpa [insert_bookings, runBatch_nil] using hs
  | cons b bs ih =>
    simp only [insert_bookings, runBatch_cons] at h ⊢
    cases hop : insert_booking s b with
    | error e => simp only [hop] at h; simp at h
    | ok s1 =>
      simp only [hop] at h ⊢
      obtain ⟨rfl, hfresh⟩ := insert_booking_ok_shape hop
      refine ih _ ?_ h
      simp only [List.map_append, List.map_cons, List.map_nil]
      rw [List.nodup_append]
      refine ⟨hs, by simp, ?_⟩
      intro x hx
      simp only [List.mem_map] at hx
      obtain ⟨r, hr, rfl⟩ := hx
      simp only [bookingToRow, List.mem_singleton]
      intro heq
      exact hfresh r hr heq

theorem delete_bookings_eq (s : Store) (bids : List Int) :
    delete_bookings s bids = (s.filter (delPred bids), none) := by
  show delete_bookings s bids =
    (s.filter fun r => !(decide (r.booking_id ∈ bids)), none)
  induction bids generalizing s with
  | nil =>
    simp only [delete_bookings, runBatch_nil]
    congr 1
    simp
  | cons i is ih =>
    simp only [delete_bookings, runBatch_cons, delete_booking]
    rw [show runBatch delete_booking (s.filter fun r => !(decide (r.booking_id = i))) is =
      delete_bookings (s.filter fun r => !(decide (r.booking_id = i))) is from rfl, ih]
    congr 1
    rw [List.filter_filter]
    apply List.filter_congr
    intro r _
    by_cases h1 : r.booking_id = i <;> by_cases h2 : r.booking_id ∈ is <;>
      simp [h1, h2, List.mem_cons]

theorem find?_eq_none_of {α : Type} (p : α → Bool) (l : List α)
    (h : ∀ x ∈ l, p x = false) : l.find? p = none := by
  induction l with
  | nil => rfl
  | cons a as ih =>
    rw [List.find?_cons_of_neg _ (by simp [h a (by simp)])]
    exact ih fun x hx => h x (by simp [hx])

theorem update_bookings_eq (s : Store) (l : List Booking)
    (hn : (l.map fun b => b.booking_id).Nodup) :
    update_bookings s l = (s.map (updRow l), none) := by
  show update_bookings s l =
    (s.map fun r =>
      match l.find? fun b => decide (b.booking_id = r.booking_id) with
      | some b => bookingToRow b
      | none => r, none)
  induction l generalizing s with
  | nil =>
    simp only [update_bookings, runBatch_nil, List.find?_nil]
    congr 1
    simp
  | cons b bs ih =>
    simp only [update_bookings, runBatch_cons, update_booking]
    rw [show runBatch update_booking
        (s.map fun r => if r.booking_id = b.booking_id then bookingToRow b else r) bs =
      update_bookings
        (s.map fun r => if r.booking_id = b.booking_id then bookingToRow b else r) bs from rfl,
      ih _ (by simpa using hn.of_cons)]
    congr 1
    rw [List.map_map]
    apply List.map_congr_left
    intro r _
    simp only [Function.comp]
    by_cases h : r.booking_id = b.booking_id
    · have hfresh : ∀ x ∈ bs, x.booking_id ≠ b.booking_id := by
        simp only [List.map_cons, List.nodup_cons, List.mem_map] at hn
        intro x hx heq
        exact hn.1 ⟨x, hx, heq⟩
      have hnone : List.find?
          (fun x => decide (x.booking_id = (bookingToRow b).booking_id)) bs = none := by
        apply find?_eq_none_of
        intro x hx
        simp only [bookingToRow, decide_eq_false_iff_not]
        exact hfresh x hx
      have hpos : (fun x : Booking => decide (x.booking_id = r.booking_id)) b = true := by
        simp [h]
      simp only [if_pos h]
      rw [hnone,
        @List.find?_cons_of_pos Booking (fun x => decide (x.booking_id = r.booking_id)) b bs hpos]
    · have hneg : ¬ ((fun x : Booking => decide (x.booking_id = r.booking_id)) b = true) := by
        simp only [decide_eq_true_eq]
        exact fun hc => h hc.symm
      simp only [if_neg h]
      rw [@List.find?_cons_of_neg Booking
        (fun x => decide (x.booking_id = r.booking_id)) b bs hneg]

theorem booking_eq_iff_fields {x b : Booking} (hid : x.booking_id = b.booking_id) :
    x = b ↔ (x.title = b.title ∧ x.resource_id = b.resource_id ∧
      x.start_time = b.start_time ∧ x.end_time = b.end_time) := by
  cases x
  cases b
  simp only at hid
  simp only [Booking.mk.injEq]
  constructor
  · rintro ⟨h1, h2, h3, h4, h5⟩
    exact ⟨h3, h1, h4, h5⟩
  · rintro ⟨h3, h1, h4, h5⟩
    exact ⟨h1, hid, h3, h4, h5⟩

theorem countP_add_countP_not {α : Type} (p : α → Bool) (l : List α) :
    l.countP p + l.countP (fun a => !(p a)) = l.length := by
  induction l with
  | nil => rfl
  | cons a as ih =>
    rw [List.countP_cons, List.countP_cons, List.length_cons]
    cases h : p a <;> simp [h] <;> omega

/-- A row with well-formed TEXT cells decodes to a booking whose instants
are valid whole-second values, and is exactly that booking's encoding. -/
theorem rowToBooking_wf {r : Row} (w1 : WFchars r.start_time = true)
    (w2 : WFchars r.end_time = true) :
    ∃ b : Booking, rowToBooking r = some b ∧
      b.start_time.isValid = true ∧ b.start_time.nano = 0 ∧
      b.end_time.isValid = true ∧ b.end_time.nano = 0 ∧
      r.start_time = toStorage b.start_time ∧ r.end_time = toStorage b.end_time ∧
      r = bookingToRow b := by
  obtain ⟨t1, hv1, hn1, he1, hf1⟩ := WFchars_spec w1
  obtain ⟨t2, hv2, hn2, he2, hf2⟩ := WFchars_spec w2
  refine ⟨⟨r.resource_id, r.booking_id, r.title, t1, t2⟩, ?_, hv1, hn1, hv2, hn2,
    he1, he2, ?_⟩
  · simp [rowToBooking, hf1, hf2]
  · simp [bookingToRow, ← he1, ← he2]

theorem queryRows_mem (s : Store) (ss es : List Char) (r : Row) :
    r ∈ queryRows s ss es ↔
      r ∈ s ∧ strLeB r.start_time es = true ∧ strLeB ss r.end_time = true := by
  simp [queryRows, List.mem_filter]

theorem rowToBooking_fields {r : Row} {b : Booking} (h : rowToBooking r = some b) :
    b.booking_id = r.booking_id ∧ b.title = r.title ∧ b.resource_id = r.resource_id := by
  cases h1 : fromStorage r.start_time with
  | none => simp [rowToBooking, h1] at h
  | some t1 =>
    cases h2 : fromStorage r.end_time with
    | none => simp [rowToBooking, h1, h2] at h
    | some t2 =>
      simp only [rowToBooking, h1, h2, Option.some_inj] at h
      subst h
      exact ⟨rfl, rfl, rfl⟩

theorem rowToBooking_bookingToRow {b : Booking}
    (h1 : b.start_time.isValid = true) (h2 : b.start_time.nano = 0)
    (h3 : b.end_time.isValid = true) (h4 : b.end_time.nano = 0) :
    rowToBooking (bookingToRow b) = some b := by
  obtain ⟨rid, bid, ttl, st, en⟩ := b
  simp only at h1 h2 h3 h4
  simp [rowToBooking, bookingToRow, fromStorage_toStorage h1 h2,
    fromStorage_toStorage h3 h4]

theorem updRow_of_none {upds : List Booking} {r : Row}
    (h : (upds.find? fun b => decide (b.booking_id = r.booking_id)) = none) :
    updRow upds r = r := by
  unfold updRow
  rw [h]

theorem updRow_of_some {upds : List Booking} {r : Row} {b : Booking}
    (h : (upds.find? fun b => decide (b.booking_id = r.booking_id)) = some b) :
    updRow upds r = bookingToRow b := by
  unfold updRow
  rw [h]

theorem updRow_id (upds : List Booking) (r : Row) :
    (updRow upds r).booking_id = r.booking_id := by
  cases h : (upds.find? fun b => decide (b.booking_id = r.booking_id)) with
  | none => rw [updRow_of_none h]
  | some b =>
    rw [updRow_of_some h]
    have := List.find?_some h
    simp only [decide_eq_true_eq] at this
    exact this

theorem find?_unique_by_id {l : List Booking}
    (hn : (l.map fun b => b.booking_id).Nodup)
    {b : Booking} (hb : b ∈ l) {i : Int} (hid : b.booking_id = i) :
    (l.find? fun x => decide (x.booking_id = i)) = some b := by
  induction l with
  | nil => cases hb
  | cons a as ih =>
    rcases List.mem_cons.mp hb with rfl | hb1
    · exact List.find?_cons_of_pos _ (by simp [hid])
    · have hn1 : a.booking_id ∉ as.map fun b => b.booking_id := by
        simp only [List.map_cons, List.nodup_cons] at hn
        exact hn.1
      have hn2 : (as.map fun b => b.booking_id).Nodup := by
        simp only [List.map_cons, List.nodup_cons] at hn
        exact hn.2
      have hne : ¬ ((fun x : Booking => decide (x.booking_id = i)) a = true) := by
        simp only [decide_eq_true_eq]
        intro hai
        exact hn1 (List.mem_map.mpr ⟨b, hb1, by rw [hid, hai]⟩)
      rw [@List.find?_cons_of_neg Booking
        (fun x => decide (x.booking_id = i)) a as hne]
      exact ih hn2 hb1

/-! ### C1 — the diff computed by `get_bookings_into_db` -/

/-- C1: for every pair of booking lists `remote` and `local` in which each
`booking_id` occurs at most once per list, the diff computes:
`new_bookings` (to_insert) = exactly the remote bookings whose `booking_id`
occurs in no local booking; `deprecated_bookings` (to_delete) = exactly the
`booking_id`s of local bookings whose id occurs in no remote booking;
`changed_bookings` (to_update) = exactly the remote bookings whose id
matches a local booking whose field set {title, resource_id, start_time,
end_time} differs; a booking present in both lists with all fields equal is
in none of the three outputs; and the three outputs are pairwise disjoint by
`booking_id`. -/
theorem diff_characterization (remote localB : List Booking)
    (_hr : (remote.map fun b => b.booking_id).Nodup)
    (hl : (localB.map fun b => b.booking_id).Nodup) :
    (∀ b : Booking, b ∈ new_bookings remote localB ↔
      (b ∈ remote ∧ ∀ x ∈ localB, x.booking_id ≠ b.booking_id)) ∧
    (∀ i : Int, i ∈ deprecated_bookings remote localB ↔
      ((∃ x ∈ localB, x.booking_id = i) ∧ ∀ b ∈ remote, b.booking_id ≠ i)) ∧
    (∀ b : Booking, b ∈ changed_bookings remote localB ↔
      (b ∈ remote ∧ ∃ x ∈ localB, x.booking_id = b.booking_id ∧
        ¬(x.title = b.title ∧ x.resource_id = b.resource_id ∧
          x.start_time = b.start_time ∧ x.end_time = b.end_time))) ∧
    (∀ b ∈ remote, ∀ x ∈ localB, x = b →
      b ∉ new_bookings remote localB ∧
      b.booking_id ∉ deprecated_bookings remote localB ∧
      b ∉ changed_bookings remote localB) ∧
    (∀ b1 ∈ new_bookings remote localB, ∀ b2 ∈ changed_bookings remote localB,
      b1.booking_id ≠ b2.booking_id) ∧
    (∀ b1 ∈ new_bookings remote localB,
      b1.booking_id ∉ deprecated_bookings remote localB) ∧
    (∀ b2 ∈ changed_bookings remote localB,
      b2.booking_id ∉ deprecated_bookings remote localB) := by
  have hnew : ∀ b : Booking, b ∈ new_bookings remote localB ↔
      (b ∈ remote ∧ ∀ x ∈ localB, x.booking_id ≠ b.booking_id) := by
    intro b
    simp [new_bookings, List.mem_filter]
  have hdep : ∀ i : Int, i ∈ deprecated_bookings remote localB ↔
      ((∃ x ∈ localB, x.booking_id = i) ∧ ∀ b ∈ remote, b.booking_id ≠ i) := by
    intro i
    simp [deprecated_bookings, List.mem_filter, List.mem_map]
  have hchg : ∀ b : Booking, b ∈ changed_bookings remote localB ↔
      (b ∈ remote ∧ ∃ x ∈ localB, x.booking_id = b.booking_id ∧
        ¬(x.title = b.title ∧ x.resource_id = b.resource_id ∧
          x.start_time = b.start_time ∧ x.end_time = b.end_time)) := by
    intro b
    simp only [changed_bookings, List.mem_filter, List.any_eq_true,
      Bool.and_eq_true, decide_eq_true_eq, Bool.not_eq_true',
      decide_eq_false_iff_not]
    refine and_congr_right fun _ => ⟨?_, ?_⟩
    · rintro ⟨x, hx, hid, hne⟩
      exact ⟨x, hx, hid, fun hf => hne ((booking_eq_iff_fields hid).mpr hf)⟩
    · rintro ⟨x, hx, hid, hnf⟩
      exact ⟨x, hx, hid, fun he => hnf ((booking_eq_iff_fields hid).mp he)⟩
  refine ⟨hnew, hdep, hchg, ?_, ?_, ?_, ?_⟩
  · intro b hb x hx hxb
    refine ⟨?_, ?_, ?_⟩
    · rw [hnew]
      rintro ⟨-, hall⟩
      exact hall x hx (by rw [hxb])
    · rw [hdep]
      rintro ⟨-, hall⟩
      exact hall b hb rfl
    · rw [hchg]
      rintro ⟨-, x1, hx1, hid1, hnf⟩
      have hx1x : x1 = x := by
        apply List.inj_on_of_nodup_map hl hx1 hx
        rw [hid1, hxb]
      subst hx1x
      subst hxb
      exact hnf ⟨rfl, rfl, rfl, rfl⟩
  · intro b1 hb1 b2 hb2 heq
    obtain ⟨-, hall⟩ := (hnew b1).mp hb1
    obtain ⟨-, x, hx, hid, -⟩ := (hchg b2).mp hb2
    exact hall x hx (by rw [hid, heq])
  · intro b1 hb1 hdep1
    obtain ⟨hb1r, -⟩ := (hnew b1).mp hb1
    obtain ⟨-, hall⟩ := (hdep _).mp hdep1
    exact hall b1 hb1r rfl
  · intro b2 hb2 hdep2
    obtain ⟨hb2r, -⟩ := (hchg b2).mp hb2
    obtain ⟨-, hall⟩ := (hdep _).mp hdep2
    exact hall b2 hb2r rfl

/-- Concrete instance of `diff_characterization`: remote `[bkA, bkB, bkD]`
against local `[bkBold, bkC, bkD]` — `bkA` is inserted, `bkB` (changed
title) is updated, `bkC`'s id 125 is deleted, and the unchanged `bkD` is
left alone. -/
theorem diff_characterization_witness :
    bkA ∈ new_bookings [bkA, bkB, bkD] [bkBold, bkC, bkD] ∧
    bkB ∈ changed_bookings [bkA, bkB, bkD] [bkBold, bkC, bkD] ∧
    (125 : Int) ∈ deprecated_bookings [bkA, bkB, bkD] [bkBold, bkC, bkD] ∧
    bkD ∉ new_bookings [bkA, bkB, bkD] [bkBold, bkC, bkD] ∧
    (126 : Int) ∉ deprecated_bookings [bkA, bkB, bkD] [bkBold, bkC, bkD] ∧
    bkD ∉ changed_bookings [bkA, bkB, bkD] [bkBold, bkC, bkD] := by
  obtain ⟨h1, h2, h3, h4, -, -, -⟩ :=
    diff_characterization [bkA, bkB, bkD] [bkBold, bkC, bkD] (by decide) (by decide)
  obtain ⟨hn, hd, hc⟩ := h4 bkD (by decide) bkD (by decide) rfl
  exact ⟨(h1 bkA).mpr ⟨by decide, by decide⟩,
    (h3 bkB).mpr ⟨by decide, bkBold, by decide, by decide, by decide⟩,
    (h2 125).mpr ⟨⟨bkC, by decide, by decide⟩, by decide⟩,
    hn, hd, hc⟩

/-! ### C3 — the storage round-trip law -/

/-- C3: for every UTC instant with second-level precision (zero sub-second
part, within the years the pattern prints without a sign), formatting with
`%Y-%m-%dT%H:%M:%S` and parsing the text back (tagging it UTC) returns
exactly the instant. -/
theorem time_storage_roundtrip (t : DT) (hv : t.isValid = true) (hn : t.nano = 0) :
    fromStorage (toStorage t) = some t :=
  fromStorage_toStorage hv hn

/-- Concrete instance of `time_storage_roundtrip` at 2021-03-26T15:30:00. -/
theorem time_storage_roundtrip_witness :
    fromStorage (toStorage ⟨2021, 3, 26, 15, 30, 0, 0⟩) =
      some ⟨2021, 3, 26, 15, 30, 0, 0⟩ :=
  time_storage_roundtrip ⟨2021, 3, 26, 15, 30, 0, 0⟩ (by decide) rfl

/-! ### C4 — pruning -/

/-- C4: `prune_old_bookings` removes exactly the stored bookings whose end
instant is strictly before the start of the current UTC day (the current
instant with hour, minute, second zeroed), and returns the number removed
(`rows_affected`).  Rows ending at or after that midnight stay. -/
theorem prune_old_bookings_spec (now : DT) (s : Store)
    (hv : now.isValid = true)
    (hwf : ∀ r ∈ s, WFchars r.end_time = true) :
    (∀ r ∈ s, ∀ t : DT, fromStorage r.end_time = some t →
      (r ∈ (prune_old_bookings now s).1 ↔
        DT.ltB t ⟨now.year, now.month, now.day, 0, 0, 0, 0⟩ = false)) ∧
    (prune_old_bookings now s).2 + (prune_old_bookings now s).1.length = s.length := by
  have hmidv : DT.isValid ⟨now.year, now.month, now.day, 0, 0, 0, 0⟩ = true := by
    simp only [DT.isValid, Bool.and_eq_true, decide_eq_true_eq] at hv ⊢
    omega
  constructor
  · intro r hr t ht
    obtain ⟨t', hv', hn', heq, hfs⟩ := WFchars_spec (hwf r hr)
    rw [ht] at hfs
    obtain rfl : t = t' := Option.some_inj.mp hfs
    have hts : toStorage ⟨now.year, now.month, now.day, 0, 0, 0, now.nano⟩ =
        toStorage ⟨now.year, now.month, now.day, 0, 0, 0, 0⟩ := rfl
    have hcmp : strLtB r.end_time
        (toStorage ⟨now.year, now.month, now.day, 0, 0, 0, now.nano⟩) =
        DT.ltB t ⟨now.year, now.month, now.day, 0, 0, 0, 0⟩ := by
      rw [hts, heq, strLtB_toStorage_eq_ltB hv' hmidv hn' rfl]
    simp only [prune_old_bookings, List.mem_filter, hr, true_and]
    rw [hcmp]
    cases DT.ltB t ⟨now.year, now.month, now.day, 0, 0, 0, 0⟩ <;> simp
  · simp only [prune_old_bookings]
    rw [List.countP_eq_length_filter]
    have := countP_add_countP_not
      (fun r : Row => strLtB r.end_time
        (toStorage ⟨now.year, now.month, now.day, 0, 0, 0, now.nano⟩)) s
    rw [List.countP_eq_length_filter, List.countP_eq_length_filter] at this
    exact this

/-- Concrete instance of `prune_old_bookings_spec`, current instant
2021-03-27T10:15:00.000000123: the row ending exactly at that day's midnight
is kept, the row ending one second earlier is pruned, and the count is 1. -/
theorem prune_old_bookings_spec_witness :
    rowMid ∈ (prune_old_bookings ⟨2021, 3, 27, 10, 15, 0, 123⟩ [rowMid, rowOld]).1 ∧
    rowOld ∉ (prune_old_bookings ⟨2021, 3, 27, 10, 15, 0, 123⟩ [rowMid, rowOld]).1 ∧
    (prune_old_bookings ⟨2021, 3, 27, 10, 15, 0, 123⟩ [rowMid, rowOld]).2 = 1 := by
  obtain ⟨hiff, -⟩ := prune_old_bookings_spec ⟨2021, 3, 27, 10, 15, 0, 123⟩
    [rowMid, rowOld] (by decide) (by decide)
  refine ⟨?_, ?_, by decide⟩
  · exact (hiff rowMid (by decide) ⟨2021, 3, 27, 0, 0, 0, 0⟩ (by decide)).mpr (by decide)
  · intro hmem
    exact absurd
      ((hiff rowOld (by decide) ⟨2021, 3, 26, 23, 59, 59, 0⟩ (by decide)).mp hmem)
      (by decide)

/-! ### C5 — the range query -/

/-- C5 (amended): for windows whose bounds are whole-second instants,
`get_bookings_in_timeframe` returns exactly those stored bookings whose
interval intersects `[start, stop]` inclusively, i.e. those with
`stored.start_time <= stop` and `start <= stored.end_time`. -/
theorem get_bookings_in_timeframe_spec (s : Store) (ws we : DT)
    (hws : ws.isValid = true) (hwe : we.isValid = true)
    (hwsn : ws.nano = 0) (hwen : we.nano = 0)
    (hwf : ∀ r ∈ s, WFchars r.start_time = true ∧ WFchars r.end_time = true) :
    ∃ L, get_bookings_in_timeframe s ws we = some L ∧
      ∀ b : Booking, b ∈ L ↔ ∃ r ∈ s, rowToBooking r = some b ∧
        DT.leB b.start_time we = true ∧ DT.leB ws b.end_time = true := by
  have hq : ∀ r ∈ queryRows s (toStorage ws) (toStorage we),
      ∃ y, rowToBooking r = some y := by
    intro r hr
    obtain ⟨hrs, -, -⟩ := (queryRows_mem s _ _ r).mp hr
    obtain ⟨w1, w2⟩ := hwf r hrs
    obtain ⟨b, hb, -⟩ := rowToBooking_wf w1 w2
    exact ⟨b, hb⟩
  obtain ⟨L, hL⟩ := optionMapList_isSome _ _ hq
  refine ⟨L, hL, ?_⟩
  intro b
  rw [optionMapList_mem _ _ _ hL]
  constructor
  · rintro ⟨r, hrq, hrb⟩
    obtain ⟨hrs, hc1, hc2⟩ := (queryRows_mem s _ _ r).mp hrq
    obtain ⟨w1, w2⟩ := hwf r hrs
    obtain ⟨b1, hb1, hv1, hn1, hv2, hn2, he1, he2, -⟩ := rowToBooking_wf w1 w2
    rw [hrb] at hb1
    obtain rfl : b1 = b := Option.some_inj.mp hb1.symm
    refine ⟨r, hrs, hrb, ?_, ?_⟩
    · rw [← strLeB_toStorage_eq_leB hv1 hwe hn1 hwen, ← he1]
      exact hc1
    · rw [← strLeB_toStorage_eq_leB hws hv2 hwsn hn2, ← he2]
      exact hc2
  · rintro ⟨r, hrs, hrb, hle1, hle2⟩
    obtain ⟨w1, w2⟩ := hwf r hrs
    obtain ⟨b1, hb1, hv1, hn1, hv2, hn2, he1, he2, -⟩ := rowToBooking_wf w1 w2
    rw [hrb] at hb1
    obtain rfl : b1 = b := Option.some_inj.mp hb1.symm
    refine ⟨r, (queryRows_mem s _ _ r).mpr ⟨hrs, ?_, ?_⟩, hrb⟩
    · rw [he1, strLeB_toStorage_eq_leB hv1 hwe hn1 hwen]
      exact hle1
    · rw [he2, strLeB_toStorage_eq_leB hws hv2 hwsn hn2]
      exact hle2

/-- Concrete instance of `get_bookings_in_timeframe_spec`: the booking
15:30–17:00 of 2021-03-26 is returned by the same-day window
[00:00:00, 23:59:59] and not by the adjacent day's window. -/
theorem get_bookings_in_timeframe_spec_witness :
    (∃ L, get_bookings_in_timeframe [bookingToRow bkA]
        ⟨2021, 3, 26, 0, 0, 0, 0⟩ ⟨2021, 3, 26, 23, 59, 59, 0⟩ = some L ∧ bkA ∈ L) ∧
    (∃ L, get_bookings_in_timeframe [bookingToRow bkA]
        ⟨2021, 3, 27, 0, 0, 0, 0⟩ ⟨2021, 3, 27, 23, 59, 59, 0⟩ = some L ∧ bkA ∉ L) := by
  constructor
  · obtain ⟨L, hL, hmem⟩ := get_bookings_in_timeframe_spec [bookingToRow bkA]
      ⟨2021, 3, 26, 0, 0, 0, 0⟩ ⟨2021, 3, 26, 23, 59, 59, 0⟩
      (by decide) (by decide) rfl rfl (by decide)
    refine ⟨L, hL, (hmem bkA).mpr ⟨bookingToRow bkA, by decide, by decide, by decide, by decide⟩⟩
  · obtain ⟨L, hL, hmem⟩ := get_bookings_in_timeframe_spec [bookingToRow bkA]
      ⟨2021, 3, 27, 0, 0, 0, 0⟩ ⟨2021, 3, 27, 23, 59, 59, 0⟩
      (by decide) (by decide) rfl rfl (by decide)
    refine ⟨L, hL, fun hmem1 => ?_⟩
    obtain ⟨r, hr, hrb, hle1, hle2⟩ := (hmem bkA).mp hmem1
    obtain rfl : r = bookingToRow bkA := List.mem_singleton.mp hr
    exact absurd hle2 (by decide)

/-- C5 as stated fails for windows with sub-second bounds: the window start
15:00:00.5 is truncated to whole seconds by the storage formatting, so the
query returns the booking ending at 15:00:00 although `start <=
stored.end_time` is false for the instants. -/
theorem get_bookings_in_timeframe_subsecond_counterexample :
    get_bookings_in_timeframe [rowEnds1500]
        ⟨2021, 3, 26, 15, 0, 0, 500000000⟩ ⟨2021, 3, 26, 16, 0, 0, 0⟩ =
      some [⟨10, 1, "q", ⟨2021, 3, 26, 14, 0, 0, 0⟩, ⟨2021, 3, 26, 15, 0, 0, 0⟩⟩] ∧
    DT.leB ⟨2021, 3, 26, 15, 0, 0, 500000000⟩ ⟨2021, 3, 26, 15, 0, 0, 0⟩ = false := by
  constructor <;> decide

/-! ### C6 — updating a booking -/

/-- C6 as stated fails: `update_booking` has no `NotFoundError` — updating a
`booking_id` absent from the store succeeds and changes nothing (the
`UPDATE` affects zero rows but still returns `Ok`); shown on the empty store
and on a store holding an unrelated row (`bkC` has id 125, `bkA` id 123). -/
theorem update_booking_absent_counterexample :
    update_booking [] bkA = Except.ok [] ∧
    update_booking [bookingToRow bkC] bkA = Except.ok [bookingToRow bkC] :=
  ⟨rfl, rfl⟩

/-- C6 (amended): `update_booking` always succeeds; when the `booking_id` is
absent the store is unchanged (a no-op), and when it is present every row
with that id is replaced by the booking's full mutable field set
{title, resource_id, start_time, end_time}, other rows and the row count
staying as they were. -/
theorem update_booking_spec (s : Store) (b : Booking) :
    ∃ s1, update_booking s b = Except.ok s1 ∧
      ((∀ r ∈ s, r.booking_id ≠ b.booking_id) → s1 = s) ∧
      (∀ r ∈ s, r.booking_id = b.booking_id → bookingToRow b ∈ s1) ∧
      (∀ r ∈ s, r.booking_id ≠ b.booking_id → r ∈ s1) ∧
      s1.length = s.length := by
  refine ⟨_, rfl, ?_, ?_, ?_, by simp⟩
  · intro hall
    rw [show (s.map fun r => if r.booking_id = b.booking_id then bookingToRow b else r)
        = s.map id from List.map_congr_left fun r hr => by simp [hall r hr], List.map_id]
  · intro r hr hid
    exact List.mem_map.mpr ⟨r, hr, by simp [hid]⟩
  · intro r hr hid
    exact List.mem_map.mpr ⟨r, hr, by simp [hid]⟩

/-- Concrete instance of `update_booking_spec`: updating id 124 replaces the
stale row's fields and creates no duplicate. -/
theorem update_booking_spec_witness :
    ∃ s1, update_booking [bookingToRow bkBold] bkB = Except.ok s1 ∧
      bookingToRow bkB ∈ s1 ∧ s1.length = 1 := by
  obtain ⟨s1, h1, -, h3, -, h5⟩ := update_booking_spec [bookingToRow bkBold] bkB
  exact ⟨s1, h1, h3 (bookingToRow bkBold) (by decide) (by decide), by simpa using h5⟩

/-! ### C7 — the batch store operations are not atomic -/

/-- C7: each of the three batch loops applies its operation element by
element; when the operation fails on the k-th element, the first k-1
elements stay applied, the error is surfaced, and the elements after the
k-th are not attempted (the result does not depend on them); nothing is
rolled back. -/
theorem batch_apply_not_atomic :
    (∀ (s s1 : Store) (pre : List Booking) (bad : Booking) (post : List Booking)
        (e : DBError),
      insert_bookings s pre = (s1, none) → insert_booking s1 bad = Except.error e →
      insert_bookings s (pre ++ bad :: post) = (s1, some e)) ∧
    (∀ (s s1 : Store) (pre : List Int) (bad : Int) (post : List Int) (e : DBError),
      delete_bookings s pre = (s1, none) → delete_booking s1 bad = Except.error e →
      delete_bookings s (pre ++ bad :: post) = (s1, some e)) ∧
    (∀ (s s1 : Store) (pre : List Booking) (bad : Booking) (post : List Booking)
        (e : DBError),
      update_bookings s pre = (s1, none) → update_booking s1 bad = Except.error e →
      update_bookings s (pre ++ bad :: post) = (s1, some e)) :=
  ⟨fun s s1 pre bad post e h1 h2 => runBatch_stops_at_error insert_booking s s1 pre bad post e h1 h2,
    fun s s1 pre bad post e h1 h2 => runBatch_stops_at_error delete_booking s s1 pre bad post e h1 h2,
    fun s s1 pre bad post e h1 h2 => runBatch_stops_at_error update_booking s s1 pre bad post e h1 h2⟩

/-- Concrete instance of `batch_apply_not_atomic`: inserting
`[bkA, bkA, bkB]` into the empty store inserts the first copy of `bkA`,
fails on the duplicate, and never attempts `bkB`. -/
theorem batch_apply_not_atomic_witness :
    insert_bookings [] ([bkA] ++ bkA :: [bkB]) =
      ([bookingToRow bkA], some DBError.InsertBooking) :=
  (batch_apply_not_atomic).1 [] [bookingToRow bkA] [bkA] bkA [bkB]
    DBError.InsertBooking (by decide) rfl

/-! ### C8 — the sync loop survives every error -/

theorem sync_cycle_step_eq (c : CycleInput) :
    sync_cycle_step c = if c.shutdown then LoopAction.stop else LoopAction.tick := by
  rcases c with ⟨g, p, sd⟩
  cases g <;> cases p <;> rfl

/-- C8: the sync loop never terminates because of a gather (fetch/reconcile)
or prune error: with no cancellation it runs through any schedule of cycle
outcomes, it returns exactly when the shutdown broadcast fires first, and
the action taken after a cycle depends only on the shutdown signal, not on
the two results. -/
theorem sync_loop_error_resilient :
    (∀ inputs : List CycleInput, (∀ c ∈ inputs, c.shutdown = false) →
      keep_db_up_to_date_returns inputs = false) ∧
    (∀ (pre : List CycleInput) (c : CycleInput) (post : List CycleInput),
      (∀ d ∈ pre, d.shutdown = false) → c.shutdown = true →
      keep_db_up_to_date_returns (pre ++ c :: post) = true) ∧
    (∀ c1 c2 : CycleInput, c1.shutdown = c2.shutdown →
      sync_cycle_step c1 = sync_cycle_step c2) := by
  refine ⟨?_, ?_, ?_⟩
  · intro inputs h
    induction inputs with
    | nil => rfl
    | cons c cs ih =>
      rw [keep_db_up_to_date_returns, sync_cycle_step_eq,
        if_neg (by rw [h c (by simp)]; exact Bool.false_ne_true)]
      exact ih fun d hd => h d (by simp [hd])
  · intro pre c post hpre hc
    induction pre with
    | nil =>
      rw [List.nil_append, keep_db_up_to_date_returns, sync_cycle_step_eq, if_pos hc]
    | cons d ds ih =>
      rw [List.cons_append, keep_db_up_to_date_returns, sync_cycle_step_eq,
        if_neg (by rw [hpre d (by simp)]; exact Bool.false_ne_true)]
      exact ih fun d1 hd1 => hpre d1 (by simp [hd1])
  · intro c1 c2 h
    rw [sync_cycle_step_eq, sync_cycle_step_eq, h]

/-- Concrete instance of `sync_loop_error_resilient`: two cycles that both
fail (a failed fetch, then a failed prune) do not end the loop; a third
cycle with the shutdown signal does. -/
theorem sync_loop_error_resilient_witness :
    keep_db_up_to_date_returns
      [⟨Except.error (GatherError.CT CTApiError.GetBookings), Except.ok 0, false⟩,
        ⟨Except.ok (), Except.error DBError.DeleteBooking, false⟩] = false ∧
    keep_db_up_to_date_returns
      [⟨Except.error (GatherError.CT CTApiError.GetBookings), Except.ok 0, false⟩,
        ⟨Except.ok (), Except.error DBError.DeleteBooking, false⟩,
        ⟨Except.ok (), Except.ok 0, true⟩] = true := by
  constructor
  · exact (sync_loop_error_resilient).1 _ (by decide)
  · exact (sync_loop_error_resilient).2.1
      [⟨Except.error (GatherError.CT CTApiError.GetBookings), Except.ok 0, false⟩,
        ⟨Except.ok (), Except.error DBError.DeleteBooking, false⟩]
      ⟨Except.ok (), Except.ok 0, true⟩ [] (by decide) rfl

/-! ### C9 — the shutdown flag is monotone -/

/-- C9: every `send_replace` site in the program writes `ShuttingDown`
(`InShutdown::Yes`), so triggering shutdown from any state — including when
it is already triggered — leaves the flag at `Yes` (a safe no-op), and once
any interleaving of triggers has made the flag `Yes`, any further triggers
keep it `Yes` (`Yes` is terminal; nothing ever writes `No` after startup). -/
theorem shutdown_flag_monotone :
    (∀ (st : InShutdown) (t : ShutdownTrigger),
      send_replace st (trigger_payload t) = InShutdown.Yes) ∧
    (∀ (init : InShutdown) (ts more : List ShutdownTrigger),
      run_triggers init ts = InShutdown.Yes →
      run_triggers init (ts ++ more) = InShutdown.Yes) := by
  have hstep : ∀ (st : InShutdown) (t : ShutdownTrigger),
      send_replace st (trigger_payload t) = InShutdown.Yes := by
    intro st t
    cases t <;> rfl
  have hyes : ∀ l : List ShutdownTrigger,
      List.foldl (fun st t => send_replace st (trigger_payload t)) InShutdown.Yes l =
        InShutdown.Yes := by
    intro l
    induction l with
    | nil => rfl
    | cons t ts ih => rw [List.foldl_cons, hstep]; exact ih
  refine ⟨hstep, ?_⟩
  intro init ts more h
  rw [run_triggers] at h ⊢
  rw [List.foldl_append, h]
  exact hyes more

/-- Concrete instance of `shutdown_flag_monotone`: after SIGTERM has set the
flag, a concurrent Ctrl-C leaves it at `Yes`. -/
theorem shutdown_flag_monotone_witness :
    run_triggers InShutdown.No
      ([ShutdownTrigger.sigterm] ++ [ShutdownTrigger.ctrlC]) = InShutdown.Yes :=
  (shutdown_flag_monotone).2 InShutdown.No [ShutdownTrigger.sigterm]
    [ShutdownTrigger.ctrlC] (by decide)

/-! ### C10 — `Debug` never reveals the login token -/

/-- C10: the `Debug` rendering of `ChurchToolsConfig` is identical for any
two configurations that agree on `host` and `ct_pull_frequency`, whatever
their `login_token`s are — the token is replaced by a fixed placeholder and
cannot leak into logs through `Debug`. -/
theorem debug_redacts_login_token (c1 c2 : ChurchToolsConfig)
    (hhost : c1.host = c2.host) (hfreq : c1.ct_pull_frequency = c2.ct_pull_frequency) :
    churchToolsConfigDebug c1 = churchToolsConfigDebug c2 := by
  simp [churchToolsConfigDebug, hhost, hfreq]

/-- Concrete instance of `debug_redacts_login_token`: two configs differing
only in the token produce the same `Debug` output. -/
theorem debug_redacts_login_token_witness :
    churchToolsConfigDebug ⟨"ct.example.org", "token-one", 60⟩ =
      churchToolsConfigDebug ⟨"ct.example.org", "token-two", 60⟩ :=
  debug_redacts_login_token _ _ rfl rfl

/-! ### C2 — idempotence of a reconciliation cycle -/

/-- C2 as stated fails for remote bookings with sub-second timestamps: one
cycle on the empty store inserts `bkSub` (start 15:30:00.5) successfully,
but the stored copy keeps only whole seconds, so reading the window back
yields the truncated booking and the second diff reports `bkSub` in
`to_update` again (as it would on every later run). -/
theorem reconcile_subsecond_counterexample :
    get_bookings_into_db [bkSub] ⟨2021, 3, 26, 0, 0, 0, 0⟩
        ⟨2021, 3, 27, 23, 59, 59, 0⟩ [] = ([bookingToRow bkSub], none) ∧
    get_bookings_in_timeframe [bookingToRow bkSub]
        ⟨2021, 3, 26, 0, 0, 0, 0⟩ ⟨2021, 3, 27, 23, 59, 59, 0⟩ = some [bkA] ∧
    new_bookings [bkSub] [bkA] = [] ∧
    deprecated_bookings [bkSub] [bkA] = [] ∧
    changed_bookings [bkSub] [bkA] = [bkSub] := by
  refine ⟨?_, ?_, ?_, ?_, ?_⟩ <;> decide

/-- C2 (amended): for a remote set with unique `booking_id`s whose
timestamps are valid whole-second instants and whose encodings fall in the
queried window, after one cycle of `get_bookings_into_db` has applied its
inserts, deletes and updates to a store (with unique keys and well-formed
cells) without error, re-running the diff against the same remote set and
the new store contents for the same window yields empty `to_insert`,
`to_delete` and `to_update`.  (Sub-second remote timestamps are excluded:
the stored representation keeps only whole seconds, so such bookings are
re-reported in `to_update` on every run.) -/
theorem reconcile_idempotent (remote : List Booking) (ws we : DT) (s0 : Store)
    (hru : (remote.map fun b => b.booking_id).Nodup)
    (hsu : (s0.map fun r => r.booking_id).Nodup)
    (hrv : ∀ b ∈ remote, b.start_time.isValid = true ∧ b.start_time.nano = 0 ∧
      b.end_time.isValid = true ∧ b.end_time.nano = 0)
    (hwf : ∀ r ∈ s0, WFchars r.start_time = true ∧ WFchars r.end_time = true)
    (hwin : ∀ b ∈ remote, strLeB (toStorage b.start_time) (toStorage we) = true ∧
      strLeB (toStorage ws) (toStorage b.end_time) = true)
    (hok : (get_bookings_into_db remote ws we s0).2 = none) :
    ∃ L1, get_bookings_in_timeframe (get_bookings_into_db remote ws we s0).1 ws we
        = some L1 ∧
      new_bookings remote L1 = [] ∧ deprecated_bookings remote L1 = [] ∧
      changed_bookings remote L1 = [] := by
  -- diff membership, for an arbitrary local list
  have hmem_new : ∀ (db : List Booking) (b : Booking), b ∈ new_bookings remote db ↔
      (b ∈ remote ∧ ∀ x ∈ db, x.booking_id ≠ b.booking_id) := by
    intro db b
    simp [new_bookings, List.mem_filter]
  have hmem_dep : ∀ (db : List Booking) (i : Int), i ∈ deprecated_bookings remote db ↔
      ((∃ x ∈ db, x.booking_id = i) ∧ ∀ b ∈ remote, b.booking_id ≠ i) := by
    intro db i
    simp [deprecated_bookings, List.mem_filter, List.mem_map]
  have hmem_chg : ∀ (db : List Booking) (b : Booking), b ∈ changed_bookings remote db ↔
      (b ∈ remote ∧ ∃ x ∈ db, x.booking_id = b.booking_id ∧ ¬x = b) := by
    intro db b
    simp [changed_bookings, List.mem_filter]
  have hrinj : ∀ b1 ∈ remote, ∀ b2 ∈ remote, b1.booking_id = b2.booking_id → b1 = b2 :=
    fun b1 h1 b2 h2 he => List.inj_on_of_nodup_map hru h1 h2 he
  have hwfrowb : ∀ b ∈ remote, WFchars (bookingToRow b).start_time = true ∧
      WFchars (bookingToRow b).end_time = true := by
    intro b hb
    obtain ⟨v1, n1, v2, n2⟩ := hrv b hb
    exact ⟨WFchars_toStorage v1 n1, WFchars_toStorage v2 n2⟩
  have hdecb : ∀ b ∈ remote, rowToBooking (bookingToRow b) = some b := by
    intro b hb
    obtain ⟨v1, n1, v2, n2⟩ := hrv b hb
    exact rowToBooking_bookingToRow v1 n1 v2 n2
  -- the first local read succeeds
  have hq0 : ∀ r ∈ queryRows s0 (toStorage ws) (toStorage we),
      ∃ y, rowToBooking r = some y := by
    intro r hr
    obtain ⟨hrs, -, -⟩ := (queryRows_mem _ _ _ r).mp hr
    obtain ⟨w1, w2⟩ := hwf r hrs
    obtain ⟨b, hb, -⟩ := rowToBooking_wf w1 w2
    exact ⟨b, hb⟩
  obtain ⟨L0, hL0⟩ := optionMapList_isSome _ _ hq0
  have hL0' : get_bookings_in_timeframe s0 ws we = some L0 := hL0
  have hL0mem : ∀ x : Booking, x ∈ L0 ↔
      ∃ r ∈ queryRows s0 (toStorage ws) (toStorage we), rowToBooking r = some x :=
    fun x => optionMapList_mem _ _ _ hL0 x
  have hL0ids : L0.map (fun b => b.booking_id) =
      (queryRows s0 (toStorage ws) (toStorage we)).map fun r => r.booking_id :=
    optionMapList_map _ _ _ _ _ hL0 fun a y hy => (rowToBooking_fields hy).1
  have hL0nodup : (L0.map fun b => b.booking_id).Nodup := by
    rw [hL0ids]
    exact List.Nodup.sublist (List.Sublist.map _ (List.filter_sublist _)) hsu
  have hL0inj : ∀ x1 ∈ L0, ∀ x2 ∈ L0, x1.booking_id = x2.booking_id → x1 = x2 :=
    fun x1 h1 x2 h2 he => List.inj_on_of_nodup_map hL0nodup h1 h2 he
  have hL0props : ∀ x ∈ L0, x.start_time.isValid = true ∧ x.start_time.nano = 0 ∧
      x.end_time.isValid = true ∧ x.end_time.nano = 0 ∧ bookingToRow x ∈ s0 := by
    intro x hx
    obtain ⟨r, hrq, hrd⟩ := (hL0mem x).mp hx
    obtain ⟨hrs, -, -⟩ := (queryRows_mem _ _ _ r).mp hrq
    obtain ⟨w1, w2⟩ := hwf r hrs
    obtain ⟨b, hb, hv1, hn1, hv2, hn2, -, -, hrow⟩ := rowToBooking_wf w1 w2
    obtain rfl : b = x := Option.some_inj.mp (hb.symm.trans hrd)
    exact ⟨hv1, hn1, hv2, hn2, hrow ▸ hrs⟩
  have hupds_nodup : ((changed_bookings remote L0).map fun b => b.booking_id).Nodup :=
    List.Nodup.sublist (List.Sublist.map _ (List.filter_sublist _)) hru
  have hdels_remote : ∀ b ∈ remote, b.booking_id ∉ deprecated_bookings remote L0 :=
    fun b hb hd => ((hmem_dep L0 _).mp hd).2 b hb rfl
  -- reduce the success path of `get_bookings_into_db`
  unfold get_bookings_into_db at hok ⊢
  rw [hL0'] at hok ⊢
  dsimp only [] at hok ⊢
  rcases hp1 : insert_bookings s0 (new_bookings remote L0) with ⟨sA, eA⟩
  cases eA with
  | some e =>
    rw [hp1] at hok
    simp at hok
  | none =>
    clear hok
    dsimp only []
    rw [delete_bookings_eq]
    dsimp only []
    rw [update_bookings_eq _ _ hupds_nodup]
    dsimp only []
    have hsA : sA = s0 ++ (new_bookings remote L0).map bookingToRow := by
      have h := insert_bookings_ok s0 (new_bookings remote L0) (by rw [hp1])
      rw [hp1] at h
      exact h
    subst hsA
    -- membership in the post-cycle store
    have hS1mem : ∀ rr : Row,
        rr ∈ (((s0 ++ (new_bookings remote L0).map bookingToRow).filter
            (delPred (deprecated_bookings remote L0))).map
              (updRow (changed_bookings remote L0))) ↔
          ∃ r0, (r0 ∈ s0 ∨ ∃ b ∈ new_bookings remote L0, bookingToRow b = r0) ∧
            r0.booking_id ∉ deprecated_bookings remote L0 ∧
            updRow (changed_bookings remote L0) r0 = rr := by
      intro rr
      simp only [List.mem_map, List.mem_filter, List.mem_append, delPred,
        Bool.not_eq_true', decide_eq_false_iff_not]
      constructor
      · rintro ⟨r0, ⟨hm, hd⟩, hu⟩
        exact ⟨r0, hm, hd, hu⟩
      · rintro ⟨r0, hm, hd, hu⟩
        exact ⟨r0, ⟨hm, hd⟩, hu⟩
    -- every remote booking's encoding is a row of the post-cycle store
    have hkey : ∀ b ∈ remote, bookingToRow b ∈
        (((s0 ++ (new_bookings remote L0).map bookingToRow).filter
            (delPred (deprecated_bookings remote L0))).map
              (updRow (changed_bookings remote L0))) := by
      intro b hb
      by_cases hbl : ∃ x ∈ L0, x.booking_id = b.booking_id
      · obtain ⟨x0, hx0, hx0id⟩ := hbl
        obtain ⟨-, -, -, -, hx0row⟩ := hL0props x0 hx0
        have hr0del : (bookingToRow x0).booking_id ∉ deprecated_bookings remote L0 := by
          show x0.booking_id ∉ deprecated_bookings remote L0
          rw [hx0id]
          exact hdels_remote b hb
        by_cases hxb : x0 = b
        · have hfind : ((changed_bookings remote L0).find? fun y =>
              decide (y.booking_id = (bookingToRow x0).booking_id)) = none := by
            apply find?_eq_none_of
            intro y hy
            simp only [decide_eq_false_iff_not]
            intro hyid
            obtain ⟨hyr, x, hx, hxid, hxne⟩ := (hmem_chg L0 y).mp hy
            have hyid0 : y.booking_id = b.booking_id := by
              rw [← hxb]
              exact hyid
            have hyb : y = b := hrinj y hyr b hb hyid0
            have hxx0 : x = x0 := hL0inj x hx x0 hx0 (by rw [hxid]; exact hyid)
            apply hxne
            rw [hxx0, hyb, hxb]
          have hupd : updRow (changed_bookings remote L0) (bookingToRow x0) =
              bookingToRow b := by
            rw [updRow_of_none hfind, hxb]
          exact (hS1mem _).mpr ⟨bookingToRow x0, Or.inl hx0row, hr0del, hupd⟩
        · have hbu : b ∈ changed_bookings remote L0 :=
            (hmem_chg L0 b).mpr ⟨hb, x0, hx0, hx0id, hxb⟩
          have hfind : ((changed_bookings remote L0).find? fun y =>
              decide (y.booking_id = (bookingToRow x0).booking_id)) = some b :=
            find?_unique_by_id hupds_nodup hbu hx0id.symm
          exact (hS1mem _).mpr ⟨bookingToRow x0, Or.inl hx0row, hr0del,
            updRow_of_some hfind⟩
      · have hbi : b ∈ new_bookings remote L0 :=
          (hmem_new L0 b).mpr ⟨hb, fun x hx hxid => hbl ⟨x, hx, hxid⟩⟩
        have hr0del : (bookingToRow b).booking_id ∉ deprecated_bookings remote L0 :=
          hdels_remote b hb
        have hfind : ((changed_bookings remote L0).find? fun y =>
            decide (y.booking_id = (bookingToRow b).booking_id)) = none := by
          apply find?_eq_none_of
          intro y hy
          simp only [decide_eq_false_iff_not]
          intro hyid
          obtain ⟨-, x, hx, hxid, -⟩ := (hmem_chg L0 y).mp hy
          refine hbl ⟨x, hx, ?_⟩
          rw [hxid]
          exact hyid
        exact (hS1mem _).mpr ⟨bookingToRow b, Or.inr ⟨b, hbi, rfl⟩, hr0del,
          updRow_of_none hfind⟩
    -- provenance of post-cycle rows
    have hS1prov : ∀ rr ∈ (((s0 ++ (new_bookings remote L0).map bookingToRow).filter
          (delPred (deprecated_bookings remote L0))).map
            (updRow (changed_bookings remote L0))),
        (∃ b ∈ remote, rr = bookingToRow b) ∨
          (rr ∈ s0 ∧ rr.booking_id ∉ deprecated_bookings remote L0 ∧
            ((changed_bookings remote L0).find? fun y =>
              decide (y.booking_id = rr.booking_id)) = none) := by
      intro rr hrr
      obtain ⟨r0, hm, hd, hu⟩ := (hS1mem rr).mp hrr
      cases hf : ((changed_bookings remote L0).find? fun y =>
          decide (y.booking_id = r0.booking_id)) with
      | some bb =>
        left
        have hbb : bb ∈ changed_bookings remote L0 := List.mem_of_find?_eq_some hf
        refine ⟨bb, ((hmem_chg L0 bb).mp hbb).1, ?_⟩
        rw [← hu, updRow_of_some hf]
      | none =>
        have hrr0 : rr = r0 := by rw [← hu, updRow_of_none hf]
        subst hrr0
        cases hm with
        | inl h0 => exact Or.inr ⟨h0, hd, hf⟩
        | inr hins =>
          obtain ⟨b1, hb1, hb1row⟩ := hins
          exact Or.inl ⟨b1, ((hmem_new L0 b1).mp hb1).1, hb1row.symm⟩
    have hS1wf : ∀ rr ∈ (((s0 ++ (new_bookings remote L0).map bookingToRow).filter
          (delPred (deprecated_bookings remote L0))).map
            (updRow (changed_bookings remote L0))),
        WFchars rr.start_time = true ∧ WFchars rr.end_time = true := by
      intro rr hrr
      rcases hS1prov rr hrr with ⟨b, hb, rfl⟩ | ⟨h0, -, -⟩
      · exact hwfrowb b hb
      · exact hwf rr h0
    -- the second local read succeeds
    have hq1 : ∀ r ∈ queryRows
        (((s0 ++ (new_bookings remote L0).map bookingToRow).filter
          (delPred (deprecated_bookings remote L0))).map
            (updRow (changed_bookings remote L0))) (toStorage ws) (toStorage we),
        ∃ y, rowToBooking r = some y := by
      intro r hr
      obtain ⟨hrs, -, -⟩ := (queryRows_mem _ _ _ r).mp hr
      obtain ⟨w1, w2⟩ := hS1wf r hrs
      obtain ⟨b, hb, -⟩ := rowToBooking_wf w1 w2
      exact ⟨b, hb⟩
    obtain ⟨L1, hL1⟩ := optionMapList_isSome _ _ hq1
    have hL1mem : ∀ x : Booking, x ∈ L1 ↔ ∃ r ∈ queryRows
        (((s0 ++ (new_bookings remote L0).map bookingToRow).filter
          (delPred (deprecated_bookings remote L0))).map
            (updRow (changed_bookings remote L0))) (toStorage ws) (toStorage we),
        rowToBooking r = some x :=
      fun x => optionMapList_mem _ _ _ hL1 x
    have hkeyL1 : ∀ b ∈ remote, b ∈ L1 := by
      intro b hb
      apply (hL1mem b).mpr
      refine ⟨bookingToRow b, (queryRows_mem _ _ _ _).mpr
        ⟨hkey b hb, (hwin b hb).1, (hwin b hb).2⟩, hdecb b hb⟩
    have hL1elem : ∀ x ∈ L1, x ∈ remote ∨
        (x ∈ L0 ∧ x.booking_id ∉ deprecated_bookings remote L0 ∧
          ((changed_bookings remote L0).find? fun y =>
            decide (y.booking_id = x.booking_id)) = none) := by
      intro x hx
      obtain ⟨rr, hrq, hrd⟩ := (hL1mem x).mp hx
      obtain ⟨hrrS1, hw1, hw2⟩ := (queryRows_mem _ _ _ rr).mp hrq
      rcases hS1prov rr hrrS1 with ⟨b, hb, rfl⟩ | ⟨h0, hd, hf⟩
      · left
        have hxb : x = b := Option.some_inj.mp ((hrd.symm.trans (hdecb b hb)))
        exact hxb ▸ hb
      · right
        have hxL0 : x ∈ L0 :=
          (hL0mem x).mpr ⟨rr, (queryRows_mem _ _ _ rr).mpr ⟨h0, hw1, hw2⟩, hrd⟩
        have hxid : x.booking_id = rr.booking_id := (rowToBooking_fields hrd).1
        refine ⟨hxL0, ?_, ?_⟩
        · rw [hxid]
          exact hd
        · rw [hxid]
          exact hf
    refine ⟨L1, hL1, ?_, ?_, ?_⟩
    · apply List.eq_nil_iff_forall_not_mem.mpr
      intro b hbn
      obtain ⟨hbr, hall⟩ := (hmem_new L1 b).mp hbn
      exact hall b (hkeyL1 b hbr) rfl
    · apply List.eq_nil_iff_forall_not_mem.mpr
      intro i hi
      obtain ⟨⟨x, hxL1, hxid⟩, hall⟩ := (hmem_dep L1 i).mp hi
      rcases hL1elem x hxL1 with hxr | ⟨hxL0, hxd, -⟩
      · exact hall x hxr hxid
      · have hne : ¬ (∀ b ∈ remote, b.booking_id ≠ x.booking_id) :=
          fun hforall => hxd ((hmem_dep L0 _).mpr ⟨⟨x, hxL0, rfl⟩, hforall⟩)
        push_neg at hne
        obtain ⟨b, hbr, hbid⟩ := hne
        exact hall b hbr (by rw [hbid, hxid])
    · apply List.eq_nil_iff_forall_not_mem.mpr
      intro b hbc
      obtain ⟨hbr, x, hxL1, hxid, hxne⟩ := (hmem_chg L1 b).mp hbc
      rcases hL1elem x hxL1 with hxr | ⟨hxL0, -, hf⟩
      · exact hxne (hrinj x hxr b hbr hxid)
      · have hbu : b ∈ changed_bookings remote L0 :=
          (hmem_chg L0 b).mpr ⟨hbr, x, hxL0, hxid, hxne⟩
        have hsome := find?_unique_by_id hupds_nodup hbu hxid.symm
        exact absurd (hf.symm.trans hsome) (by simp)

/-- Concrete instance of `reconcile_idempotent`: one cycle inserting `bkA`
into the empty store, then an empty second diff. -/
theorem reconcile_idempotent_witness :
    ∃ L1, get_bookings_in_timeframe
        (get_bookings_into_db [bkA] ⟨2021, 3, 26, 0, 0, 0, 0⟩
          ⟨2021, 3, 27, 23, 59, 59, 0⟩ []).1
        ⟨2021, 3, 26, 0, 0, 0, 0⟩ ⟨2021, 3, 27, 23, 59, 59, 0⟩ = some L1 ∧
      new_bookings [bkA] L1 = [] ∧ deprecated_bookings [bkA] L1 = [] ∧
      changed_bookings [bkA] L1 = [] :=
  reconcile_idempotent [bkA] ⟨2021, 3, 26, 0, 0, 0, 0⟩ ⟨2021, 3, 27, 23, 59, 59, 0⟩ []
    (by decide) (by decide) (by decide) (by decide) (by decide) (by decide)

end RoomOverview

